import Mathlib

/-!
Verification development for a remote log-file plugin (provider / tools /
lib).  The Python sources are shallowly embedded: pure string and list
manipulation is translated directly; interaction with the remote host
(SSH, SFTP, the remote `file` command, `re`, `time.time()`) is made
explicit through environment records and oracle parameters, and every
point where the source catches an exception is modelled by the
corresponding total branch.
-/

namespace LogPlugin

/-! ## Basic string helpers (Python semantics) -/

/-- The single-quote character, used by `shlex.quote` and by command
construction in the tool layer. -/
def squote : Char := '\x27'

/-- `listIsPrefix p s` is `True` iff the list `p` is a prefix of `s`
(Boolean version, mirrors Python `str.startswith` / `bytes.startswith`). -/
def listIsPrefix [BEq α] : List α → List α → Bool
  | [], _ => true
  | _ :: _, [] => false
  | p :: ps, c :: cs => p == c && listIsPrefix ps cs

/-- Python `s.startswith(pre)`. -/
def pyStartswith (s pre : String) : Bool :=
  listIsPrefix pre.data s.data

/-- Substring occurrence over code points. -/
def listContainsSub (pat : List Char) : List Char → Bool
  | [] => listIsPrefix pat []
  | c :: cs => listIsPrefix pat (c :: cs) || listContainsSub pat cs

/-- Python `pat in s` on strings. -/
def strContains (s pat : String) : Bool :=
  listContainsSub pat.data s.data

/-- Split a character list at every occurrence of the character `sep`
(Python `str.split(sep)` for a one-character separator). -/
def splitChar (sep : Char) : List Char → List (List Char)
  | [] => [[]]
  | c :: cs =>
    if c == sep then [] :: splitChar sep cs
    else
      match splitChar sep cs with
      | [] => [[c]]
      | g :: gs => (c :: g) :: gs

/-- Split a character list at every occurrence of the nonempty
separator `sep` (Python `str.split(sep)`).  `fuel` only bounds the
recursion; `l.length + 1` always suffices. -/
def listSplitOnF (sep : List Char) : Nat → List Char → List (List Char)
  | 0, l => [l]
  | _ + 1, [] => [[]]
  | fuel + 1, c :: cs =>
    if listIsPrefix sep (c :: cs) then
      [] :: listSplitOnF sep fuel ((c :: cs).drop sep.length)
    else
      match listSplitOnF sep fuel cs with
      | [] => [[c]]
      | g :: gs => (c :: g) :: gs

/-- Python `s.split(sep)` for a nonempty separator. -/
def pySplitOn (s sep : String) : List String :=
  (listSplitOnF sep.data (s.data.length + 1) s.data).map (fun l => String.mk l)

/-- Python `s.strip()` (over the ASCII whitespace occurring here). -/
def pyStrip (s : String) : String :=
  String.mk (((s.data.dropWhile Char.isWhitespace).reverse.dropWhile Char.isWhitespace).reverse)

/-- Python `s.lower()` (ASCII letters). -/
def pyLower (s : String) : String :=
  String.mk (s.data.map Char.toLower)

/-- `sep.join(parts)`. -/
def strIntercalate (sep : String) (parts : List String) : String :=
  String.mk (List.intercalate sep.data (parts.map (fun p => p.data)))

/-- One step of `posixpath.normpath`'s component loop.  The accumulator is
kept reversed (head = most recent component). -/
def normStep (initialSlashes : Nat) (acc : List (List Char)) (comp : List Char) : List (List Char) :=
  if comp == [] || comp == ['.'] then acc
  else if comp != ['.', '.'] || (initialSlashes == 0 && acc.isEmpty) ||
      acc.head? == some ['.', '.'] then
    comp :: acc
  else
    match acc with
    | [] => []
    | _ :: rest => rest

/-- `os.path.normpath` (POSIX flavour), as used by
`SecurityManager.validate_path` and `LogTool._is_path_safe`. -/
def normpath (path : String) : String :=
  if path == "" then "."
  else
    let cs := path.data
    let initialSlashes : Nat :=
      if listIsPrefix ['/', '/'] cs && !listIsPrefix ['/', '/', '/'] cs then 2
      else if listIsPrefix ['/'] cs then 1
      else 0
    let comps := splitChar '/' cs
    let newComps := (comps.foldl (normStep initialSlashes) []).reverse
    let joined := List.intercalate ['/'] newComps
    let out := List.replicate initialSlashes '/' ++ joined
    if out.isEmpty then "." else String.mk out

/-- `fnmatch.fnmatch` on POSIX for patterns built from literals, `*` and
`?` (the patterns appearing in this code base use no bracket classes):
`*` matches any sequence of characters, `?` any single character.  The
`fuel` argument only bounds the recursion; every step shortens
`pattern ++ s`, so any fuel above `pattern.length + s.length` computes
the match. -/
def globMatchF : Nat → List Char → List Char → Bool
  | 0, _, _ => false
  | _ + 1, [], s => s.isEmpty
  | fuel + 1, p :: ps, s =>
    if p == '*' then
      globMatchF fuel ps s ||
        (match s with
         | [] => false
         | _ :: cs => globMatchF fuel (p :: ps) cs)
    else
      match s with
      | [] => false
      | c :: cs => (p == '?' || p == c) && globMatchF fuel ps cs

/-- `fnmatch.fnmatch(name, pattern)`. -/
def fnmatchB (name pattern : String) : Bool :=
  globMatchF (pattern.length + name.length + 1) pattern.data name.data

/-! ## SecurityManager (src/lib/security.py) -/

/-- `SecurityManager.dangerous_paths`. -/
def dangerousPaths : List String :=
  ["/etc/shadow", "/etc/passwd", "/etc/ssh", "/root", "/home",
   "/boot", "/proc", "/sys", "/dev"]

/-- `SecurityManager.dangerous_commands`. -/
def dangerousCommands : List String :=
  ["rm", "mv", "cp", "chmod", "chown", "dd", "mkfs", "mount",
   "umount", "sudo", "su", "reboot", "shutdown"]

/-- The suspicious path substrings checked by `validate_path`. -/
def suspiciousPathPatterns : List String :=
  ["../", "/../", "/./", "*", "?", "|", ">", "<", ";", "&", "$", "\x60", "\\"]

/-- `SecurityManager.validate_path`. -/
def validate_path (path : String) : Bool :=
  let normalizedPath := normpath path
  if !pyStartswith normalizedPath "/" then false
  else if dangerousPaths.any
      (fun d => normalizedPath == d || pyStartswith normalizedPath (d ++ "/")) then false
  else if suspiciousPathPatterns.any (fun pat => strContains path pat) then false
  else true

/-- Word characters of `re` with `re.ASCII` (`\w`). -/
def isWordChar (c : Char) : Bool :=
  c.isAlphanum || c == '_'

/-- `tok` occurs at the head of `s` with a word boundary on its right. -/
def wordAtHead (tok : List Char) (s : List Char) : Bool :=
  listIsPrefix tok s &&
    (match s.drop tok.length with
     | [] => true
     | c :: _ => !isWordChar c)

/-- Scans `s` for an occurrence of `tok` preceded by a non-word position;
`prevWord` records whether the previous character was a word character.
For a purely alphabetic `tok` this is `re.search(r"\b" + tok + r"\b", s)`. -/
def containsWordFrom (tok : List Char) (prevWord : Bool) : List Char → Bool
  | [] => !prevWord && wordAtHead tok []
  | c :: cs =>
    (!prevWord && wordAtHead tok (c :: cs)) || containsWordFrom tok (isWordChar c) cs

/-- `re.search(r"\b" + re.escape(tok) + r"\b", s)` for the alphabetic
tokens of `dangerous_commands`. -/
def containsWord (tok s : String) : Bool :=
  containsWordFrom tok.data false s.data

/-- The suspicious characters checked by `sanitize_command`. -/
def suspiciousCommandChars : List Char :=
  [';', '&', '|', '>', '<', '\x60', '$', '\\', '"', '\x27']

/-- Characters `shlex.quote` leaves unquoted: ASCII word characters and
`@ % + = : , . -` and the slash (Python's `_find_unsafe` with `re.ASCII`). -/
def shlexSafeChar (c : Char) : Bool :=
  c.isAlphanum || c == '_' || c == '@' || c == '%' || c == '+' || c == '=' ||
  c == ':' || c == ',' || c == '.' || c == '/' || c == '-'

/-- `shlex.quote`. -/
def shlexQuote (s : String) : String :=
  if s == "" then String.mk [squote, squote]
  else if s.data.all shlexSafeChar then s
  else
    String.mk
      ([squote] ++
        List.intercalate [squote, '"', squote, '"', squote]
          (listSplitOnF [squote] (s.data.length + 1) s.data) ++
        [squote])

/-- Accumulator pass for Python `str.split()` with no argument:
whitespace runs separate words, no empty pieces are produced. -/
def pyWordsAux (cur : List Char) : List Char → List (List Char)
  | [] => if cur.isEmpty then [] else [cur.reverse]
  | c :: cs =>
    if c.isWhitespace then
      if cur.isEmpty then pyWordsAux [] cs else cur.reverse :: pyWordsAux [] cs
    else pyWordsAux (c :: cur) cs

/-- Python `str.split()` with no argument. -/
def pySplit (s : String) : List String :=
  (pyWordsAux [] s.data).map (fun l => String.mk l)

/-- `SecurityManager.sanitize_command`.  The empty string is the
rejection value the source returns on a dangerous command. -/
def sanitize_command (command : String) : String :=
  if dangerousCommands.any (fun tok => containsWord tok command) then ""
  else if suspiciousCommandChars.any (fun c => command.data.contains c) then ""
  else
    let parts := pySplit command
    let sanitizedParts := parts.enum.map (fun ip => if ip.1 > 0 then shlexQuote ip.2 else ip.2)
    strIntercalate " " sanitizedParts

/-! ## LogTool path and command gates (src/tools/tool_impl.py) -/

/-- `LogTool._dangerous_paths`. -/
def toolDangerousPaths : List String :=
  ["/etc/shadow", "/etc/passwd", "/etc/sudoers",
   "/root/.ssh", "/home/*/.ssh", "/var/lib/mysql",
   "/etc/ssl/private", "/etc/ssh"]

/-- `LogTool._is_path_safe`: the normalized path must be absolute and is
then matched with `fnmatch` against each dangerous pattern. -/
def is_path_safe (path : String) : Bool :=
  let normalizedPath := normpath path
  if !pyStartswith normalizedPath "/" then false
  else if toolDangerousPaths.any (fun d => fnmatchB normalizedPath d) then false
  else true

/-- `LogTool._dangerous_commands`. -/
def toolDangerousCommands : List String :=
  [";", "&&", "||", "\x60", "$(",
   ">", ">>", "<", "<<",
   "|", "rm", "mv", "cp",
   "wget", "curl", "nc",
   "chmod", "chown", "sudo", "su"]

/-- `LogTool._is_command_safe`: plain substring checks. -/
def is_command_safe (command : String) : Bool :=
  !(toolDangerousCommands.any (fun d => strContains command d))

/-! ## CacheManager (src/lib/cache.py)

The cache dictionary is an `OrderedDict`; we model it as an association
list whose head is the least recently used entry and whose tail end is
the most recently used one (`get` moves the accessed key to the end,
`set` appends at the end, `popitem(last=False)` pops the head).
`time.time()` is passed explicitly as an integer `now` parameter. -/

/-- A cached value.  `text s` stands for a `str` (or `bytes`) value whose
accounted size is `len(str(value))`; `blob id` stands for any other
value, accounted at the fixed 1024 bytes the source uses. -/
inductive CVal where
  | text (s : String)
  | blob (id : Nat)
deriving DecidableEq, Repr

/-- The accounted size `len(str(value)) if isinstance(value, (str, bytes)) else 1024`. -/
def CVal.size : CVal → Nat
  | .text s => s.length
  | .blob _ => 1024

/-- First-match association lookup (Python dict access, keys unique). -/
def lookupKey : List (String × α) → String → Option α
  | [], _ => none
  | p :: ps, k => if p.1 == k then some p.2 else lookupKey ps k

/-- Remove all entries for `k` (Python `del d[k]` on a unique-key dict). -/
def removeKey (l : List (String × α)) (k : String) : List (String × α) :=
  l.filter (fun p => p.1 != k)

/-- Python `d[k] = v`: any old entry is dropped and the binding appended. -/
def setKey (l : List (String × α)) (k : String) (v : α) : List (String × α) :=
  removeKey l k ++ [(k, v)]

/-- State of a `CacheManager`. -/
structure CacheState where
  cache : List (String × CVal)
  maxCacheSize : Nat
  currentCacheSize : Int
  expiryTimes : List (String × Int)
  accessTimes : List (String × Int)
deriving DecidableEq, Repr

/-- `CacheManager.__init__`. -/
def initCache (maxCacheSize : Nat) : CacheState :=
  { cache := [], maxCacheSize := maxCacheSize, currentCacheSize := 0,
    expiryTimes := [], accessTimes := [] }

/-- `CacheManager.clear(key)` for a specific key. -/
def cacheClearKey (st : CacheState) (key : String) : CacheState :=
  match lookupKey st.cache key with
  | none => st
  | some v =>
    { st with
      cache := removeKey st.cache key,
      currentCacheSize := st.currentCacheSize - v.size,
      expiryTimes := removeKey st.expiryTimes key,
      accessTimes := removeKey st.accessTimes key }

/-- `CacheManager.clear()` with no key: drop everything. -/
def cacheClearAll (st : CacheState) : CacheState :=
  { st with cache := [], currentCacheSize := 0, expiryTimes := [], accessTimes := [] }

/-- `CacheManager.get`.  Returns the value (or `none`) and the updated
state: an expired entry is removed, a live one is moved to the
most-recently-used end. -/
def cacheGet (st : CacheState) (key : String) (now : Int) : Option CVal × CacheState :=
  match lookupKey st.cache key with
  | none => (none, st)
  | some v =>
    let expired :=
      match lookupKey st.expiryTimes key with
      | some e => decide (e < now)
      | none => false
    if expired then (none, cacheClearKey st key)
    else
      (some v,
       { st with
         accessTimes := setKey st.accessTimes key now,
         cache := removeKey st.cache key ++ [(key, v)] })

/-- `CacheManager._evict_one`: pop the least-recently-used entry. -/
def evictOne (st : CacheState) : CacheState :=
  match st.cache with
  | [] => st
  | (k, v) :: rest =>
    { st with
      cache := rest,
      currentCacheSize := st.currentCacheSize - v.size,
      expiryTimes := removeKey st.expiryTimes k,
      accessTimes := removeKey st.accessTimes k }

/-- The `while` loop of `CacheManager.set` with an explicit iteration
bound: evict one entry at a time while the new value would not fit and
the cache is nonempty.  Each iteration removes exactly one entry, so
`st.cache.length` iterations always suffice. -/
def evictLoopF (valueSize : Nat) : Nat → CacheState → CacheState
  | 0, st => st
  | fuel + 1, st =>
    if st.currentCacheSize + (valueSize : Int) > (st.maxCacheSize : Int) && !st.cache.isEmpty then
      evictLoopF valueSize fuel (evictOne st)
    else st

/-- The `while` loop of `CacheManager.set`.  When the fuel runs out the
cache is empty, which is exactly the loop's own exit condition. -/
def evictLoop (valueSize : Nat) (st : CacheState) : CacheState :=
  evictLoopF valueSize st.cache.length st

/-- `CacheManager.set`. -/
def cacheSet (st : CacheState) (key : String) (value : CVal) (ttl : Int) (now : Int) : CacheState :=
  let valueSize := value.size
  let st1 :=
    match lookupKey st.cache key with
    | some old =>
      { st with
        currentCacheSize := st.currentCacheSize - old.size,
        cache := removeKey st.cache key }
    | none => st
  let st2 := evictLoop valueSize st1
  let st3 :=
    { st2 with
      cache := st2.cache ++ [(key, value)],
      currentCacheSize := st2.currentCacheSize + valueSize,
      accessTimes := setKey st2.accessTimes key now }
  if ttl > 0 then { st3 with expiryTimes := setKey st3.expiryTimes key (now + ttl) }
  else st3

/-- `CacheManager.cleanup_expired`. -/
def cleanupExpired (st : CacheState) (now : Int) : CacheState :=
  let expiredKeys := (st.expiryTimes.filter (fun p => p.2 < now)).map (fun p => p.1)
  expiredKeys.foldl cacheClearKey st

/-- `CacheManager.get_stats().total_size` — the reported used size. -/
def cacheStatsTotalSize (st : CacheState) : Int :=
  st.currentCacheSize

/-- A cache API call, with its wall-clock instant where the source reads
`time.time()`. -/
inductive CacheOp where
  | get (key : String) (now : Int)
  | set (key : String) (value : CVal) (ttl : Int) (now : Int)
  | clearKey (key : String)
  | clearAll
  | cleanup (now : Int)
deriving DecidableEq, Repr

/-- Apply one API call to the state. -/
def applyOp (st : CacheState) : CacheOp → CacheState
  | .get k now => (cacheGet st k now).2
  | .set k v ttl now => cacheSet st k v ttl now
  | .clearKey k => cacheClearKey st k
  | .clearAll => cacheClearAll st
  | .cleanup now => cleanupExpired st now

/-- Run a sequence of API calls. -/
def runOps (st : CacheState) (ops : List CacheOp) : CacheState :=
  ops.foldl applyOp st

/-- True total of the accounted sizes of the entries currently stored. -/
def liveSize (l : List (String × CVal)) : Int :=
  (l.map (fun p => (p.2.size : Int))).sum

/-- The internal well-formedness of a cache state: stored keys are
unique and the running size counter equals the true total. -/
def CacheInv (st : CacheState) : Prop :=
  (st.cache.map (fun p => p.1)).Nodup ∧ st.currentCacheSize = liveSize st.cache

instance (st : CacheState) : Decidable (CacheInv st) := by
  unfold CacheInv; infer_instance

/-- The recorded access time of a key (`access_times[key]`; 0 if the
key was never recorded, which cannot happen for stored keys). -/
def accessOf (st : CacheState) (k : String) : Int :=
  (lookupKey st.accessTimes k).getD 0

/-- The `OrderedDict` order agrees with the recorded access times:
front = least recently accessed.  `get` and `set` maintain this, which
is what makes `_evict_one`'s front-pop an LRU eviction. -/
def SortedByAccess (st : CacheState) : Prop :=
  st.cache.Pairwise (fun p q => accessOf st p.1 ≤ accessOf st q.1)

instance (st : CacheState) : Decidable (SortedByAccess st) := by
  unfold SortedByAccess; infer_instance

/-- `t` is an upper bound for every recorded access time, and is a
valid wall-clock instant (`time.time()` is nonnegative and
monotone). -/
def TimeUB (st : CacheState) (t : Int) : Prop :=
  (∀ p ∈ st.accessTimes, p.2 ≤ t) ∧ 0 ≤ t

instance (st : CacheState) (t : Int) : Decidable (TimeUB st t) := by
  unfold TimeUB; infer_instance

/-! ## Chunked file reading (src/provider.py)

`LogProvider.read_file_chunk` seeks to `start_pos`, reads at most
`chunk_size` bytes and reports `tell()` and an EOF flag.  The remote file
is modelled by its byte list; `sftp.stat(...).st_size` is its length.
The chunk cache is consulted first in the source; on a fresh cache (or a
hit, which stores exactly the tuple computed below) the returned triple
is the one modelled here. -/

/-- `LogProvider.optimize_chunk_size`: file-size tiers. -/
def optimize_chunk_size (fileSize : Nat) : Nat :=
  if fileSize < 1024 * 1024 then fileSize
  else if fileSize < 10 * 1024 * 1024 then 1024 * 1024
  else if fileSize < 100 * 1024 * 1024 then 5 * 1024 * 1024
  else 10 * 1024 * 1024

/-- `LogProvider.read_file_chunk` on file content `file`: the returned
bytes, the new position (`f.tell()` after the read), and the EOF flag
`current_pos >= file_size`. -/
def read_file_chunk (file : List Nat) (startPos : Nat) (chunkSize : Option Nat) :
    List Nat × Nat × Bool :=
  let fileSize := file.length
  let cs := chunkSize.getD (optimize_chunk_size fileSize)
  let content := (file.drop startPos).take cs
  let currentPos := startPos + content.length
  (content, currentPos, decide (currentPos ≥ fileSize))

/-- Repeatedly call `read_file_chunk` with the engine-chosen chunk size,
feeding each returned position into the next call, stopping at the first
chunk whose EOF flag is set.  `fuel` bounds the recursion; with fuel
`file.length + 1` the loop always reaches EOF. -/
def readAllChunks (file : List Nat) : Nat → Nat → List (List Nat × Bool)
  | 0, _ => []
  | fuel + 1, pos =>
    let r := read_file_chunk file pos none
    if r.2.2 then [(r.1, true)]
    else (r.1, false) :: readAllChunks file fuel r.2.1

/-- The chunk sequence obtained by starting at position 0. -/
def chunkSequence (file : List Nat) : List (List Nat × Bool) :=
  readAllChunks file (file.length + 1) 0

/-! ## Connection retry and reuse (src/provider.py, src/lib/connection.py)

`LogProvider.get_connection_with_retry` and
`ConnectionManager.get_connection` interact with the network; the outcome
of each creation attempt is an oracle `outcome : Nat → Except E C`
(`.error` models a raised exception), the liveness probe
(`transport.is_active()` plus `send_ignore()`) is an oracle
`probeOk : C → Bool`. -/

/-- Result of the retry loop: on success it records whether a recovery
message was logged (`i > 0`); either way it records the backoff delays
slept, in order.  `err none` models the `RuntimeError` fallback when no
attempt raised. -/
inductive RetryOutcome (E C : Type) where
  | ok (conn : C) (recoveryLogged : Bool) (delays : List Nat)
  | err (lastError : Option E) (delays : List Nat)
deriving DecidableEq, Repr

/-- The `for i in range(max_retries)` loop of
`LogProvider.get_connection_with_retry`, with `rem = maxRetries - i`
remaining iterations: on an exception the loop sleeps `delay` and
doubles it, except after the final attempt (`i < max_retries - 1`). -/
def retryAux (outcome : Nat → Except E C) (maxRetries : Nat) :
    Nat → Nat → Nat → Option E → List Nat → RetryOutcome E C
  | 0, _, _, lastErr, delays => .err lastErr delays
  | rem + 1, i, delay, lastErr, delays =>
    match outcome i with
    | .ok c => .ok c (decide (0 < i)) delays
    | .error e =>
      if i < maxRetries - 1 then
        retryAux outcome maxRetries rem (i + 1) (delay * 2) (some e) (delays ++ [delay])
      else
        retryAux outcome maxRetries rem (i + 1) delay (some e) delays

/-- `LogProvider.get_connection_with_retry(max_retries=3, retry_delay=5)`. -/
def get_connection_with_retry (outcome : Nat → Except E C)
    (maxRetries : Nat := 3) (retryDelay : Nat := 5) : RetryOutcome E C :=
  retryAux outcome maxRetries maxRetries 0 retryDelay none []

/-- `ConnectionManager.connections`, keyed by `username@host:port`. -/
structure ConnMState (C : Type) where
  connections : List (String × C)
deriving DecidableEq, Repr

/-- `ConnectionManager.get_connection` for identity `connId`:
reuse the pooled handle when the liveness probe succeeds, otherwise
create a fresh one (`fresh` is the oracle for `paramiko` connection
creation; `.error` models a raised exception).  The returned `Bool` is
true when the existing handle was reused. -/
def cm_get_connection (st : ConnMState C) (connId : String)
    (probeOk : C → Bool) (fresh : Except E C) :
    Except E (C × ConnMState C × Bool) :=
  let create : Except E (C × ConnMState C × Bool) :=
    match fresh with
    | .ok ssh => .ok (ssh, ⟨setKey st.connections connId ssh⟩, false)
    | .error e => .error e
  match lookupKey st.connections connId with
  | some ssh => if probeOk ssh then .ok (ssh, st, true) else create
  | none => create

/-! ## Directory listing (src/tools/tool_impl.py, `LogTool._list_files`)

The remote directory tree (as enumerated by `sftp.listdir_attr`) is
modelled as a finite tree of named files and directories.  We embed the
`read_content=False` projection of `_list_files` — the scenario claims
use no content reading.  `st_mtime` values are kept as naturals; the
source sorts by the derived ISO-8601 string, whose lexicographic order
agrees with the numeric order of the timestamps. -/

/-- A directory entry on the remote host. -/
inductive FSEntry where
  | file (name : String) (size : Nat) (mtime : Nat)
  | dir (name : String) (children : List FSEntry)

/-- The per-file record `_list_files` builds (the fields the claims
inspect). -/
structure FileInfo where
  name : String
  path : String
  size : Nat
  mtime : Nat
deriving DecidableEq, Repr

/-- The counters accumulated by `list_dir_recursive`. -/
structure ListAcc where
  fileList : List FileInfo
  totalSize : Nat
  totalFiles : Nat
  filteredFiles : Nat
deriving DecidableEq, Repr

/-- `os.path.join(a, b)` for a nonempty `a` and a relative `b`, the only
shape occurring here. -/
def pathJoin (a b : String) : String := a ++ "/" ++ b

/-- `list_dir_recursive(current_path, depth)`: the guard `depth >
max_depth` returns immediately; files are counted, glob-filtered and
recorded; subdirectories are recursed into only when `depth <
max_depth`.  `fuel` bounds the recursion depth (any fuel above the
tree's height is enough). -/
def walkFuel (pattern : String) (maxDepth : Nat) :
    Nat → String → Nat → ListAcc → List FSEntry → ListAcc
  | 0, _, _, acc, _ => acc
  | fuel + 1, path, depth, acc, entries =>
    if depth > maxDepth then acc
    else
      entries.foldl
        (fun acc e =>
          match e with
          | .dir name children =>
            if depth < maxDepth then
              walkFuel pattern maxDepth fuel (pathJoin path name) (depth + 1) acc children
            else acc
          | .file name size mtime =>
            let acc1 := { acc with totalFiles := acc.totalFiles + 1 }
            if !fnmatchB name pattern then
              { acc1 with filteredFiles := acc1.filteredFiles + 1 }
            else
              { acc1 with
                totalSize := acc1.totalSize + size,
                fileList := acc1.fileList ++
                  [{ name := name, path := pathJoin path name, size := size, mtime := mtime }] })
        acc

/-- Stable insertion keeping the list sorted by `mtime`, newest first
(an element is placed after every earlier element of equal or newer
mtime, matching a stable descending sort). -/
def insertByMtimeDesc (x : FileInfo) : List FileInfo → List FileInfo
  | [] => [x]
  | y :: ys => if x.mtime > y.mtime then x :: y :: ys else y :: insertByMtimeDesc x ys

/-- `file_list.sort(key=lambda x: x["modified_time"], reverse=True)` —
a stable sort, newest first. -/
def sortByMtimeDesc (l : List FileInfo) : List FileInfo :=
  l.foldl (fun acc x => insertByMtimeDesc x acc) []

/-- The result envelope of `_list_files` (the wall-clock
`execution_time` field is not modelled). -/
structure ListFilesResult where
  fileList : List FileInfo
  totalFiles : Nat
  totalSize : Nat
  filteredFiles : Nat
  error : Option String
deriving DecidableEq, Repr

/-- `LogTool._list_files` with `read_content=False`, on an existing
directory whose contents are `tree`.  `maxDepthRaw` is the caller's
`max_depth`, clamped to `[0, 5]`. -/
def list_files (tree : List FSEntry) (path : String) (filePattern : String)
    (maxDepthRaw : Int) (fuel : Nat) : ListFilesResult :=
  if !is_path_safe path then
    { fileList := [], totalFiles := 0, totalSize := 0, filteredFiles := 0,
      error := some ("unsafe path: " ++ path) }
  else
    let maxDepth : Nat :=
      if maxDepthRaw < 0 then 0 else if maxDepthRaw > 5 then 5 else maxDepthRaw.toNat
    let acc := walkFuel filePattern maxDepth fuel path 1 ⟨[], 0, 0, 0⟩ tree
    { fileList := sortByMtimeDesc acc.fileList,
      totalFiles := acc.totalFiles,
      totalSize := acc.totalSize,
      filteredFiles := acc.filteredFiles,
      error := none }

/-! ## File content reading (src/tools/tool_impl.py)

`_read_file_content`, `_detect_mime_type`, `_detect_encoding` and
`_is_likely_binary`.  Remote interaction is an explicit environment:

* `hasGetConnection` — whether `self.provider.get_connection()`
  resolves to a working connection.  `LogProvider` (src/provider.py)
  defines no `get_connection` method at all, so in this code base the
  call raises `AttributeError`, which both helpers catch; the value is
  therefore `false` for the shipped provider.
* `fileCmdMime` — stdout of `file --mime-type -b` when it exits 0
  (`none` models a nonzero exit or an exception).
* `fileCmdIOut` — stdout of `file -i`.
* `decode` — `bytes.decode(enc, errors="replace")`, which never raises
  for the encodings used here and returns a nonempty string on
  nonempty input.
* `regex` — `re.compile(pattern)`: `none` models `re.error`, `some
  test` gives `pattern.search` on a line. -/

/-- Environment for a single `_read_file_content` call. -/
structure ReadEnv where
  hasGetConnection : Bool
  fileExists : Bool
  fileSize : Nat
  bytes : List Nat
  fileCmdMime : Option String
  fileCmdIOut : String
  decode : String → List Nat → String
  regex : String → Option (String → Bool)

/-- `LogTool._detect_mime_type`. -/
def detect_mime_type (env : ReadEnv) : Option String :=
  if !env.hasGetConnection then none else env.fileCmdMime

/-- A UTF-8 continuation byte. -/
def utf8Cont (b : Nat) : Bool := 0x80 ≤ b && b ≤ 0xBF

/-- Whether a byte sequence is valid UTF-8 (no overlong forms, no
surrogates) — `bytes.decode("utf-8")` succeeds exactly on these. -/
def utf8Valid : List Nat → Bool
  | [] => true
  | b :: bs =>
    if b ≤ 0x7F then utf8Valid bs
    else if 0xC2 ≤ b && b ≤ 0xDF then
      match bs with
      | b1 :: rest => utf8Cont b1 && utf8Valid rest
      | [] => false
    else if b == 0xE0 then
      match bs with
      | b1 :: b2 :: rest => (0xA0 ≤ b1 && b1 ≤ 0xBF) && utf8Cont b2 && utf8Valid rest
      | _ => false
    else if b == 0xED then
      match bs with
      | b1 :: b2 :: rest => (0x80 ≤ b1 && b1 ≤ 0x9F) && utf8Cont b2 && utf8Valid rest
      | _ => false
    else if 0xE1 ≤ b && b ≤ 0xEF then
      match bs with
      | b1 :: b2 :: rest => utf8Cont b1 && utf8Cont b2 && utf8Valid rest
      | _ => false
    else if b == 0xF0 then
      match bs with
      | b1 :: b2 :: b3 :: rest =>
        (0x90 ≤ b1 && b1 ≤ 0xBF) && utf8Cont b2 && utf8Cont b3 && utf8Valid rest
      | _ => false
    else if 0xF1 ≤ b && b ≤ 0xF3 then
      match bs with
      | b1 :: b2 :: b3 :: rest => utf8Cont b1 && utf8Cont b2 && utf8Cont b3 && utf8Valid rest
      | _ => false
    else if b == 0xF4 then
      match bs with
      | b1 :: b2 :: b3 :: rest =>
        (0x80 ≤ b1 && b1 ≤ 0x8F) && utf8Cont b2 && utf8Cont b3 && utf8Valid rest
      | _ => false
    else false

/-- The BOM-sniffing / trial-decoding fallback of `_detect_encoding`
over the first 4 KiB.  The trial order is utf-8, latin-1, gbk, gb2312;
`latin-1` decoding never fails, so gbk is unreachable, as is the final
utf-8 default. -/
def bomFallback (env : ReadEnv) : String :=
  let content := env.bytes.take 4096
  if listIsPrefix [0xEF, 0xBB, 0xBF] content then "utf-8-sig"
  else if listIsPrefix [0xFF, 0xFE] content || listIsPrefix [0xFE, 0xFF] content then "utf-16"
  else if utf8Valid content then "utf-8"
  else "latin-1"

/-- The charsets `_detect_encoding` accepts from `file -i` verbatim. -/
def encodingWhitelist : List String :=
  ["utf-8", "us-ascii", "iso-8859-1", "utf-16", "gbk", "gb2312"]

/-- `LogTool._detect_encoding`.  With no working `get_connection` (the
shipped `LogProvider`) the initial call raises and the whole helper
returns the `"utf-8"` default from its exception handler. -/
def detect_encoding (env : ReadEnv) : String :=
  if !env.hasGetConnection then "utf-8"
  else
    let output := env.fileCmdIOut
    if strContains output "charset=" then
      let charset := pyStrip ((pySplitOn output "charset=").getD 1 "")
      if charset == "binary" then "binary"
      else if encodingWhitelist.contains charset then charset
      else bomFallback env
    else bomFallback env

/-- `LogTool.binary_extensions`. -/
def binaryExtensions : List String :=
  [".bin", ".exe", ".dll", ".so", ".dylib", ".obj", ".o",
   ".pyc", ".pyd", ".pyo", ".class", ".jar", ".war",
   ".zip", ".tar", ".gz", ".bz2", ".xz", ".rar", ".7z",
   ".pdf", ".doc", ".docx", ".xls", ".xlsx", ".ppt", ".pptx",
   ".jpg", ".jpeg", ".png", ".gif", ".bmp", ".ico", ".tif", ".tiff",
   ".mp3", ".mp4", ".avi", ".mov", ".flv", ".wmv", ".wav", ".ogg",
   ".db", ".sqlite", ".mdb", ".accdb"]

/-- The extension part of `os.path.splitext` (POSIX): the suffix from
the last dot of the basename, unless only dots precede it. -/
def splitextExt (path : String) : String :=
  let cs := (splitChar '/' path.data).getLastD path.data
  match cs.reverse.findIdx? (fun c => c == '.') with
  | none => ""
  | some ri =>
    let i := cs.length - 1 - ri
    if (cs.take i).all (fun c => c == '.') then "" else String.mk (cs.drop i)

/-- `LogTool._is_likely_binary`. -/
def is_likely_binary (filename : String) : Bool :=
  binaryExtensions.contains (splitextExt (pyLower filename))

/-- Python `str.splitlines()` over the line breaks occurring in this
development (`\n`, `\r\n`, `\r`). -/
def pySplitlinesAux (cur : List Char) : List Char → List (List Char)
  | [] => if cur.isEmpty then [] else [cur.reverse]
  | '\r' :: '\n' :: rest => cur.reverse :: pySplitlinesAux [] rest
  | '\r' :: rest => cur.reverse :: pySplitlinesAux [] rest
  | '\n' :: rest => cur.reverse :: pySplitlinesAux [] rest
  | c :: rest => pySplitlinesAux (c :: cur) rest

/-- Python `str.splitlines()`. -/
def pySplitlines (s : String) : List String :=
  (pySplitlinesAux [] s.data).map (fun l => String.mk l)

/-- The result record of `_read_file_content`. -/
structure ReadFileResult where
  content : String
  preview : String
  matchList : List (Nat × String)
  totalLines : Nat
  isTruncated : Bool
  encoding : String
  isBinary : Bool
  mimeType : Option String
  error : Option String

/-- The initial result dict of `_read_file_content`. -/
def emptyReadResult : ReadFileResult :=
  { content := "", preview := "", matchList := [], totalLines := 0, isTruncated := false,
    encoding := "utf-8", isBinary := false, mimeType := none, error := none }

/-- The binary test of `_read_file_content`: the detected MIME type
marks the file binary, or the extension does. -/
def readIsBinary (env : ReadEnv) (filePath : String) : Bool :=
  (match detect_mime_type env with
   | some m => (strContains m "binary" || strContains m "application/") && !strContains m "text/"
   | none => false) || is_likely_binary filePath

/-- `LogTool._read_file_content`.  Error-message texts are abstracted;
only their presence matters to the claims. -/
def read_file_content (env : ReadEnv) (filePath : String) (maxSize : Nat) (maxLines : Nat)
    (searchPattern : Option String) : ReadFileResult :=
  if !env.fileExists then
    { emptyReadResult with error := some ("file not found: " ++ filePath) }
  else
    let r1 := { emptyReadResult with isTruncated := decide (env.fileSize > maxSize) }
    let mime := detect_mime_type env
    let r2 := { r1 with mimeType := mime }
    let isBinary := readIsBinary env filePath
    let r3 := { r2 with isBinary := isBinary }
    if isBinary then { r3 with error := some ("binary file not readable: " ++ filePath) }
    else
      let enc := detect_encoding env
      let r4 := { r3 with encoding := enc }
      if enc == "binary" then
        { r4 with isBinary := true, error := some "binary file not readable" }
      else
        let text := env.decode enc (env.bytes.take maxSize)
        let lines := pySplitlines text
        let r5 := { r4 with totalLines := lines.length }
        let r6 :=
          match searchPattern with
          | some pat =>
            match env.regex pat with
            | some test =>
              { r5 with matchList :=
                  ((lines.enum.filterMap
                     (fun (il : Nat × String) =>
                       if test il.2 then some (il.1 + 1, il.2) else none)).take 100) }
            | none => { r5 with error := some ("invalid regex: " ++ pat) }
          | none => r5
        let r7 :=
          if maxLines > 0 && lines.length > 0 then
            { r6 with preview := strIntercalate "\n" (lines.take (min maxLines lines.length)) }
          else r6
        { r7 with content := text }

/-! ## Tail (src/tools/tool_impl.py, `LogTool.tail_log_file`) -/

/-- Environment for a `tail_log_file` call: the connection outcome
(`.error e` models `get_connection_with_retry` raising, whose message
`str(e)` lands in the result), and the remote command's streams.  The
exit status and stderr are part of the protocol but `tail_log_file`
never reads them. -/
structure TailEnv where
  connect : Except String Unit
  stdoutLines : List String
  exitStatus : Nat
  stderrText : String

/-- The result record of `tail_log_file`. -/
structure TailResult where
  lines : List String
  error : Option String
deriving DecidableEq, Repr

/-- `LogTool.tail_log_file`.  A `none` file path models a missing (or
falsy) `file_path` parameter. -/
def tail_log_file (env : TailEnv) (filePath : Option String) (lineCount : Int) : TailResult :=
  match filePath with
  | none => { lines := [], error := some "missing required parameter: file_path" }
  | some fp =>
    if !is_path_safe fp then { lines := [], error := some "unsafe path" }
    else
      let tailCmd :=
        "tail -n " ++ toString lineCount ++ " " ++ String.mk [squote] ++ fp ++ String.mk [squote]
      if !is_command_safe tailCmd then { lines := [], error := some "unsafe command" }
      else
        match env.connect with
        | .error e => { lines := [], error := some e }
        | .ok _ => { lines := env.stdoutLines.map (fun l => pyStrip l), error := none }

/-! ## Concrete fixtures used to evaluate the model -/

/-- The PNG magic bytes (`\x89PNG\r\n\x1a\n`), as recognised by
`BinaryLogParser.parse`. -/
def pngMagic : List Nat := [0x89, 0x50, 0x4E, 0x47, 0x0D, 0x0A, 0x1A, 0x0A]

/-- A byte-per-character decoder; stands in for Python's
`bytes.decode(enc, errors="replace")`, which on nonempty input always
yields a nonempty string. -/
def byteDecode : String → List Nat → String :=
  fun _ bs => String.mk (bs.map (fun b => Char.ofNat b))

/-- A remote file whose content is the PNG magic, named `data.log`, as
seen through the shipped `LogProvider` (which has no `get_connection`
method, so `hasGetConnection := false`); the remote `file` command
would report `image/png` and `charset=binary`, but those answers are
never received. -/
def pngEnvShipped : ReadEnv :=
  { hasGetConnection := false, fileExists := true, fileSize := 8, bytes := pngMagic,
    fileCmdMime := some "image/png",
    fileCmdIOut := "data.log: image/png; charset=binary",
    decode := byteDecode, regex := fun _ => none }

/-- The same file seen through a provider whose `get_connection` works
(the behaviour the surrounding code clearly intends). -/
def pngEnvIntended : ReadEnv :=
  { pngEnvShipped with hasGetConnection := true }

/-- A small two-line text file, with a regex oracle that rejects every
pattern (modelling a caller-supplied pattern that fails to compile). -/
def invalidRegexEnv : ReadEnv :=
  { hasGetConnection := false, fileExists := true, fileSize := 5,
    bytes := [104, 105, 10, 104, 111],
    fileCmdMime := none, fileCmdIOut := "",
    decode := byteDecode, regex := fun _ => none }

/-! # Theorems -/

/-- A glob pattern that opens with a literal (no `*`, no `?`) can only
match strings that start with that literal. -/
lemma globMatchF_literal_prefix (lit : List Char) (hstar : '*' ∉ lit) (hq : '?' ∉ lit) :
    ∀ (fuel : Nat) (rest s : List Char),
      globMatchF fuel (lit ++ rest) s = true → listIsPrefix lit s = true := by
  induction lit with
  | nil => intro fuel rest s _; rfl
  | cons c lit ih =>
    intro fuel rest s h
    simp only [List.mem_cons, not_or] at hstar hq
    have hc1 : (c == '*') = false :=
      beq_eq_false_iff_ne.mpr (fun hcc => hstar.1 hcc.symm)
    have hc2 : (c == '?') = false :=
      beq_eq_false_iff_ne.mpr (fun hcc => hq.1 hcc.symm)
    match fuel with
    | 0 => simp [globMatchF] at h
    | fuel + 1 =>
      rw [List.cons_append] at h
      simp only [globMatchF, hc1, Bool.false_eq_true, if_false] at h
      match s with
      | [] => simp at h
      | c' :: cs =>
        simp only [hc2, Bool.false_or, Bool.and_eq_true] at h
        have hpre := ih hstar.2 hq.2 fuel rest cs h.2
        simp [listIsPrefix, h.1, hpre]

/-- C2 counterexample.  `"/root/x"` normalizes to itself and falls
under the denylisted directory `"/root"`, yet `LogTool._is_path_safe`
accepts it (its `fnmatch` test matches patterns exactly, never
subtrees).  Likewise a traversal path containing `"../"` is accepted
once normalization has cancelled the dots. -/
theorem C2_counterexample :
    ("/root" ∈ dangerousPaths ∧
     pyStartswith (normpath "/root/x") ("/root" ++ "/") = true ∧
     is_path_safe "/root/x" = true) ∧
    (strContains "/var/log/../../tmp/x" "../" = true ∧
     is_path_safe "/var/log/../../tmp/x" = true) := by
  decide

/-- C2 (amended): for every path that contains `"../"`, or whose
normalized form equals or falls under a denylisted directory, or whose
normalized form matches the glob `"/home/*/.ssh"`,
`SecurityManager.validate_path` returns `false`.  (The tool-level
`_is_path_safe` does not have this property; see the counterexample.) -/
theorem C2_validate_path_denies (p : String)
    (h : strContains p "../" = true ∨
         (∃ d ∈ dangerousPaths,
            normpath p = d ∨ pyStartswith (normpath p) (d ++ "/") = true) ∨
         fnmatchB (normpath p) "/home/*/.ssh" = true) :
    validate_path p = false := by
  simp only [validate_path]
  by_cases h1 : pyStartswith (normpath p) "/"
  · simp only [h1, Bool.not_true, Bool.false_eq_true, if_false]
    by_cases hA : (dangerousPaths.any
        fun d => normpath p == d || pyStartswith (normpath p) (d ++ "/")) = true
    · simp [hA]
    · have hB : ∀ d ∈ dangerousPaths,
          ¬(normpath p == d || pyStartswith (normpath p) (d ++ "/")) = true := by
        intro d hd
        intro hcontra
        exact hA (List.any_eq_true.mpr ⟨d, hd, hcontra⟩)
      rcases h with hdot | ⟨d, hd, hcase⟩ | hglob
      · have hBany : (suspiciousPathPatterns.any fun pat => strContains p pat) = true :=
          List.any_eq_true.mpr ⟨"../", by decide, hdot⟩
        simp [hA, hBany]
      · exfalso
        apply hB d hd
        rcases hcase with he | hp
        · simp [he]
        · simp [hp]
      · exfalso
        apply hB "/home" (by decide)
        have hsplit : ("/home/*/.ssh" : String).data =
            ("/home/" : String).data ++ ("*/.ssh" : String).data := by decide
        have hpre : listIsPrefix ("/home/" : String).data (normpath p).data = true := by
          apply globMatchF_literal_prefix ("/home/" : String).data (by decide) (by decide)
            _ ("*/.ssh" : String).data _
          rw [← hsplit]
          exact hglob
        have hsw : pyStartswith (normpath p) ("/home/") = true := hpre
        have happ : ("/home" : String) ++ "/" = "/home/" := rfl
        rw [happ]
        simp [hsw]
  · simp [h1]

/-- C2 witness: `"/etc/shadow/x"` falls under the denylisted
`"/etc/shadow"` and is rejected by `validate_path`. -/
theorem C2_witness : validate_path "/etc/shadow/x" = false :=
  C2_validate_path_denies "/etc/shadow/x"
    (Or.inr (Or.inl ⟨"/etc/shadow", by decide, Or.inr (by decide)⟩))

/-- C3: `sanitize_command` rejects (returns the empty string) exactly
when the command contains a denylisted token as a word or a suspicious
shell metacharacter; otherwise it shell-quotes every argument token
after the leading command name.  In particular `"rm -rf /"` is rejected
and `"tail -n 10 /var/log/syslog"` is returned unchanged. -/
theorem C3_sanitize_command (cmd : String) :
    ((dangerousCommands.any (fun tok => containsWord tok cmd) = true ∨
      suspiciousCommandChars.any (fun c => cmd.data.contains c) = true) →
        sanitize_command cmd = "") ∧
    (dangerousCommands.any (fun tok => containsWord tok cmd) = false →
      suspiciousCommandChars.any (fun c => cmd.data.contains c) = false →
        sanitize_command cmd =
          strIntercalate " "
            ((pySplit cmd).enum.map (fun ip => if ip.1 > 0 then shlexQuote ip.2 else ip.2))) ∧
    sanitize_command "rm -rf /" = "" ∧
    sanitize_command "tail -n 10 /var/log/syslog" = "tail -n 10 /var/log/syslog" := by
  refine ⟨?_, ?_, by decide, by decide⟩
  · rintro (h | h)
    · simp [sanitize_command, h]
    · by_cases hd : (dangerousCommands.any fun tok => containsWord tok cmd) = true
      · simp [sanitize_command, hd]
      · rw [Bool.not_eq_true] at hd
        unfold sanitize_command
        rw [hd, h]
        simp
  · intro h1 h2
    unfold sanitize_command
    rw [h1, h2]
    simp

/-- C3 witness: both concrete examples, discharged through the main
theorem. -/
theorem C3_witness :
    sanitize_command "rm -rf /" = "" ∧
    sanitize_command "tail -n 10 /var/log/syslog" = "tail -n 10 /var/log/syslog" :=
  ⟨(C3_sanitize_command "rm -rf /").1 (Or.inl (by decide)),
   (C3_sanitize_command "tail -n 10 /var/log/syslog").2.1 (by decide) (by decide)⟩

/-- The engine's chunk size is positive for a nonempty file. -/
lemma optimize_chunk_size_pos (n : Nat) (h : 0 < n) : 0 < optimize_chunk_size n := by
  unfold optimize_chunk_size
  split_ifs <;> omega

/-- The chunk loop, run from any position with enough fuel, returns the
rest of the file split into chunks: their concatenation is the file's
tail from that position, and the EOF flag is false on every chunk
except the last, where it is true. -/
lemma readAllChunks_spec (file : List Nat) :
    ∀ (fuel pos : Nat), file.length - pos < fuel →
      ((readAllChunks file fuel pos).map Prod.fst).flatten = file.drop pos ∧
      (readAllChunks file fuel pos).map Prod.snd =
        List.replicate ((readAllChunks file fuel pos).length - 1) false ++ [true] := by
  intro fuel
  induction fuel with
  | zero => intro pos h; omega
  | succ n ih =>
    intro pos hfuel
    have hchunk : read_file_chunk file pos none =
        ((file.drop pos).take (optimize_chunk_size file.length),
         pos + min (optimize_chunk_size file.length) (file.length - pos),
         decide (pos + min (optimize_chunk_size file.length) (file.length - pos) ≥
           file.length)) := by
      simp [read_file_chunk]
    by_cases he :
        pos + min (optimize_chunk_size file.length) (file.length - pos) ≥ file.length
    · have hres : readAllChunks file (n + 1) pos =
          [((file.drop pos).take (optimize_chunk_size file.length), true)] := by
        simp [readAllChunks, hchunk, he]
      have htake : (file.drop pos).take (optimize_chunk_size file.length) = file.drop pos := by
        apply List.take_of_length_le
        have h1 : min (optimize_chunk_size file.length) (file.length - pos) ≤
            file.length - pos := Nat.min_le_right _ _
        simp only [List.length_drop]
        omega
      rw [hres, htake]
      simp
    · have hposlt : pos < file.length := by omega
      have hcs1 : 0 < optimize_chunk_size file.length :=
        optimize_chunk_size_pos _ (by omega)
      have hmin : min (optimize_chunk_size file.length) (file.length - pos) =
          optimize_chunk_size file.length := by omega
      have hres : readAllChunks file (n + 1) pos =
          ((file.drop pos).take (optimize_chunk_size file.length), false) ::
            readAllChunks file n (pos + optimize_chunk_size file.length) := by
        simp only [readAllChunks, hchunk]
        rw [hmin]
        simp only [ge_iff_le, decide_eq_true_eq]
        rw [if_neg (by omega)]
      obtain ⟨ihj, ihs⟩ := ih (pos + optimize_chunk_size file.length) (by omega)
      refine ⟨?_, ?_⟩
      · rw [hres]
        simp only [List.map_cons, List.flatten_cons]
        rw [ihj]
        have hdd : file.drop (pos + optimize_chunk_size file.length) =
            (file.drop pos).drop (optimize_chunk_size file.length) := by
          rw [List.drop_drop, Nat.add_comm]
        rw [hdd, List.take_append_drop]
      · rw [hres]
        have hne : readAllChunks file n (pos + optimize_chunk_size file.length) ≠ [] := by
          intro h0
          rw [h0] at ihs
          simp at ihs
        simp only [List.map_cons, List.length_cons, Nat.add_sub_cancel]
        rw [ihs]
        obtain ⟨k, hk⟩ : ∃ k,
            (readAllChunks file n (pos + optimize_chunk_size file.length)).length = k + 1 := by
          cases hl : (readAllChunks file n (pos + optimize_chunk_size file.length)) with
          | nil => exact absurd hl hne
          | cons a l => exact ⟨l.length, by simp [hl]⟩
        rw [hk]
        simp [List.replicate_succ]

/-- C6: starting from position 0 and always passing the returned
position back, with the engine's own chunk-size policy, the chunks
concatenate to the full file content and the EOF flag is true exactly
once, on the final chunk. -/
theorem C6_chunk_reassembly (file : List Nat) :
    ((chunkSequence file).map Prod.fst).flatten = file ∧
    (chunkSequence file).map Prod.snd =
      List.replicate ((chunkSequence file).length - 1) false ++ [true] := by
  have h := readAllChunks_spec file (file.length + 1) 0 (by omega)
  simpa [chunkSequence] using h

/-- C7: the session layer's documented retry, propagation, recovery and
reuse behaviour.  (1) Two failed creation attempts followed by a
success yield the new handle, sleep 5 s then 10 s, and log a recovery
event; (2) three failures propagate the error of the last attempt;
(3) a first-attempt success sleeps never and logs no recovery; (4) an
`acquire` for an identity with a pooled handle whose liveness probe
succeeds returns that very handle with the pool unchanged, without
creating a connection. -/
theorem C7_retry_and_reuse :
    (∀ (E C : Type) (outcome : Nat → Except E C) (e0 e1 : E) (c : C),
        outcome 0 = .error e0 → outcome 1 = .error e1 → outcome 2 = .ok c →
        get_connection_with_retry outcome = .ok c true [5, 10]) ∧
    (∀ (E C : Type) (outcome : Nat → Except E C) (e0 e1 e2 : E),
        outcome 0 = .error e0 → outcome 1 = .error e1 → outcome 2 = .error e2 →
        get_connection_with_retry outcome = .err (some e2) [5, 10]) ∧
    (∀ (E C : Type) (outcome : Nat → Except E C) (c : C),
        outcome 0 = .ok c →
        get_connection_with_retry outcome = .ok c false []) ∧
    (∀ (C : Type) (st : ConnMState C) (connId : String) (probeOk : C → Bool)
        (fresh : Except String C) (ssh : C),
        lookupKey st.connections connId = some ssh → probeOk ssh = true →
        cm_get_connection st connId probeOk fresh = .ok (ssh, st, true)) := by
  refine ⟨?_, ?_, ?_, ?_⟩
  · intro E C outcome e0 e1 c h0 h1 h2
    simp [get_connection_with_retry, retryAux, h0, h1, h2]
  · intro E C outcome e0 e1 e2 h0 h1 h2
    simp [get_connection_with_retry, retryAux, h0, h1, h2]
  · intro E C outcome c h0
    simp [get_connection_with_retry, retryAux, h0]
  · intro C st connId probeOk fresh ssh hlk hprobe
    simp [cm_get_connection, hlk, hprobe]

/-- C7 witness: a concrete oracle failing twice then succeeding, and a
concrete one-handle pool with a succeeding probe. -/
theorem C7_witness :
    get_connection_with_retry
        (fun i => if i < 2 then Except.error i else Except.ok 9) = .ok 9 true [5, 10] ∧
    cm_get_connection (⟨[("u@h:22", 1)]⟩ : ConnMState Nat) "u@h:22" (fun _ => true)
        (Except.error "x") = .ok (1, ⟨[("u@h:22", 1)]⟩, true) :=
  ⟨C7_retry_and_reuse.1 Nat Nat _ 0 1 9 rfl rfl rfl,
   C7_retry_and_reuse.2.2.2 Nat ⟨[("u@h:22", 1)]⟩ "u@h:22" _ _ 1 rfl rfl⟩

/-- Membership in the stable descending insertion. -/
lemma mem_insertByMtimeDesc (x : FileInfo) (l : List FileInfo) (z : FileInfo) :
    z ∈ insertByMtimeDesc x l ↔ z = x ∨ z ∈ l := by
  induction l with
  | nil => simp [insertByMtimeDesc]
  | cons y ys ih =>
    simp only [insertByMtimeDesc]
    split_ifs with h
    · simp only [List.mem_cons]
    · simp only [List.mem_cons, ih]
      tauto

/-- The stable descending insertion preserves sortedness by `mtime`,
newest first. -/
lemma pairwise_insertByMtimeDesc (x : FileInfo) (l : List FileInfo)
    (h : l.Pairwise (fun a b => b.mtime ≤ a.mtime)) :
    (insertByMtimeDesc x l).Pairwise (fun a b => b.mtime ≤ a.mtime) := by
  induction l with
  | nil => simp [insertByMtimeDesc]
  | cons y ys ih =>
    rw [List.pairwise_cons] at h
    obtain ⟨hy, hys⟩ := h
    simp only [insertByMtimeDesc]
    split_ifs with hx
    · refine List.Pairwise.cons ?_ (List.Pairwise.cons hy hys)
      intro z hz
      rcases List.mem_cons.mp hz with rfl | hz'
      · omega
      · have := hy z hz'
        omega
    · refine List.Pairwise.cons ?_ (ih hys)
      intro z hz
      rcases (mem_insertByMtimeDesc x ys z).mp hz with rfl | hz'
      · omega
      · exact hy z hz'

/-- The listing sort really is sorted by modification time, newest
first. -/
lemma pairwise_sortByMtimeDesc (l : List FileInfo) :
    (sortByMtimeDesc l).Pairwise (fun a b => b.mtime ≤ a.mtime) := by
  suffices h : ∀ acc : List FileInfo, acc.Pairwise (fun a b => b.mtime ≤ a.mtime) →
      (l.foldl (fun acc x => insertByMtimeDesc x acc) acc).Pairwise
        (fun a b => b.mtime ≤ a.mtime) by
    exact h [] (by simp)
  induction l with
  | nil => intro acc hacc; simpa using hacc
  | cons x xs ih => intro acc hacc; exact ih _ (pairwise_insertByMtimeDesc x acc hacc)

/-- C8: listing `/var/log` with pattern `*.log` and `max_depth = 2` over
a tree holding `a.log` (500 bytes), `sub/b.log` (2000 bytes) and
`c.txt` yields exactly the two `.log` files sorted newest first,
`total_files = 3` (all files seen, `c.txt` included) and
`filtered_files = 1` (`c.txt`); and the listing's sort is always
ordered by modification time, newest first. -/
theorem C8_list_scenario :
    list_files
        [FSEntry.file "a.log" 500 1000,
         FSEntry.dir "sub" [FSEntry.file "b.log" 2000 2000],
         FSEntry.file "c.txt" 100 1500]
        "/var/log" "*.log" 2 10 =
      { fileList :=
          [{ name := "b.log", path := "/var/log/sub/b.log", size := 2000, mtime := 2000 },
           { name := "a.log", path := "/var/log/a.log", size := 500, mtime := 1000 }],
        totalFiles := 3, totalSize := 2500, filteredFiles := 1, error := none } ∧
    ∀ l : List FileInfo,
      (sortByMtimeDesc l).Pairwise (fun a b => b.mtime ≤ a.mtime) :=
  ⟨by decide, pairwise_sortByMtimeDesc⟩

/-- C9: the code as shipped diverges from the claim.  On a file whose
content starts with the PNG magic bytes but whose name does not have a
binary extension, `_read_file_content` returns `is_binary = false`, no
error, and nonempty content: both detection helpers call
`provider.get_connection()`, which `LogProvider` does not define, so
MIME detection yields `None` and encoding detection falls back to the
`"utf-8"` default in its exception handler. -/
theorem C9_png_divergence :
    (read_file_content pngEnvShipped "data.log" 1048576 50 none).isBinary = false ∧
    (read_file_content pngEnvShipped "data.log" 1048576 50 none).error = none ∧
    (read_file_content pngEnvShipped "data.log" 1048576 50 none).content ≠ "" := by
  decide

/-- With a working `get_connection` (the evident intent of the code),
the same PNG file is rejected exactly as the claim states: the remote
`file -i` reports `charset=binary`, so `is_binary` is set, the error is
populated and the content stays empty. -/
lemma png_intended_behavior :
    (read_file_content pngEnvIntended "data.log" 1048576 50 none).isBinary = true ∧
    (read_file_content pngEnvIntended "data.log" 1048576 50 none).error ≠ none ∧
    (read_file_content pngEnvIntended "data.log" 1048576 50 none).content = "" := by
  decide

/-- C1 counterexample: on an invalid caller-supplied regex,
`_read_file_content` populates the error field but still returns the
whole decoded file content — not the empty default the claim
requires. -/
theorem C1_counterexample :
    (read_file_content invalidRegexEnv "app.log" 1048576 50 (some "(")).error ≠ none ∧
    (read_file_content invalidRegexEnv "app.log" 1048576 50 (some "(")).content ≠ "" := by
  decide

/-- C1 (amended): every embedded failure path of the read and tail
operations returns the result record with the error field populated and
the content-bearing fields at their empty defaults, and no exception
escapes — with two deviations the code forces: (c) on an invalid
caller-supplied regex the error is populated but the decoded content is
still returned alongside it, and (f) a nonzero remote exit of the tail
command is not surfaced at all (the error stays null). -/
theorem C1_degradation :
    (∀ (env : ReadEnv) (fp : String) (maxSize maxLines : Nat) (pat : Option String),
        env.fileExists = false →
        read_file_content env fp maxSize maxLines pat =
          { emptyReadResult with error := some ("file not found: " ++ fp) }) ∧
    (∀ (env : ReadEnv) (fp : String) (maxSize maxLines : Nat) (pat : Option String),
        env.fileExists = true → readIsBinary env fp = true →
        read_file_content env fp maxSize maxLines pat =
          { emptyReadResult with
              isTruncated := decide (env.fileSize > maxSize),
              mimeType := detect_mime_type env,
              isBinary := true,
              error := some ("binary file not readable: " ++ fp) }) ∧
    (∀ (env : ReadEnv) (fp : String) (maxSize maxLines : Nat) (pat : String),
        env.fileExists = true → readIsBinary env fp = false →
        detect_encoding env ≠ "binary" → env.regex pat = none →
        ((read_file_content env fp maxSize maxLines (some pat)).error ≠ none ∧
         (read_file_content env fp maxSize maxLines (some pat)).matchList = [] ∧
         (read_file_content env fp maxSize maxLines (some pat)).content =
           env.decode (detect_encoding env) (env.bytes.take maxSize))) ∧
    (∀ (env : TailEnv) (n : Int),
        tail_log_file env none n =
          { lines := [], error := some "missing required parameter: file_path" }) ∧
    (∀ (env : TailEnv) (fp : String) (n : Int),
        is_path_safe fp = false →
        tail_log_file env (some fp) n = { lines := [], error := some "unsafe path" }) ∧
    (∀ (env : TailEnv) (fp : String) (n : Int) (e : String),
        is_path_safe fp = true →
        is_command_safe
          ("tail -n " ++ toString n ++ " " ++ String.mk [squote] ++ fp ++ String.mk [squote]) =
            true →
        env.connect = .error e →
        tail_log_file env (some fp) n = { lines := [], error := some e }) ∧
    (∀ (env : TailEnv) (fp : String) (n : Int),
        is_path_safe fp = true →
        is_command_safe
          ("tail -n " ++ toString n ++ " " ++ String.mk [squote] ++ fp ++ String.mk [squote]) =
            true →
        env.connect = .ok () →
        tail_log_file env (some fp) n =
          { lines := env.stdoutLines.map (fun l => pyStrip l), error := none }) := by
  refine ⟨?_, ?_, ?_, ?_, ?_, ?_, ?_⟩
  · intro env fp maxSize maxLines pat h
    simp [read_file_content, h]
  · intro env fp maxSize maxLines pat hex hbin
    simp [read_file_content, hex, hbin]
  · intro env fp maxSize maxLines pat hex hbin henc hre
    have henc' : (detect_encoding env == "binary") = false :=
      beq_eq_false_iff_ne.mpr henc
    simp only [read_file_content, hex, hbin, henc', hre]
    refine ⟨?_, ?_, ?_⟩ <;> (split_ifs <;> simp_all [emptyReadResult])
  · intro env n
    rfl
  · intro env fp n h
    simp [tail_log_file, h]
  · intro env fp n e hp hc hconn
    simp [tail_log_file, hp, hc, hconn]
  · intro env fp n hp hc hconn
    simp [tail_log_file, hp, hc, hconn]

/-- C1 witness: a missing file and a failed connection, at concrete
inputs, through the main theorem. -/
theorem C1_witness :
    read_file_content { pngEnvShipped with fileExists := false } "x.log" 10 5 none =
      { emptyReadResult with error := some ("file not found: " ++ "x.log") } ∧
    tail_log_file
        { connect := .error "boom", stdoutLines := [], exitStatus := 0, stderrText := "" }
        (some "/var/log/syslog") 10 =
      { lines := [], error := some "boom" } :=
  ⟨C1_degradation.1 _ "x.log" 10 5 none rfl,
   C1_degradation.2.2.2.2.2.1 _ "/var/log/syslog" 10 "boom" (by decide) (by decide) rfl⟩

/-! ## Association-list lemmas for the cache model -/

lemma lookupKey_none_iff {α : Type} (l : List (String × α)) (k : String) :
    lookupKey l k = none ↔ k ∉ l.map Prod.fst := by
  induction l with
  | nil => simp [lookupKey]
  | cons p ps ih =>
    by_cases h : (p.1 == k) = true
    · have hk : p.1 = k := eq_of_beq h
      simp [lookupKey, h, hk]
    · have hne : p.1 ≠ k := by
        intro hc
        exact h (by simp [hc])
      have hne' : k ≠ p.1 := Ne.symm hne
      simp [lookupKey, h, ih, hne']

lemma lookupKey_mem {α : Type} (l : List (String × α)) (k : String) (v : α)
    (h : lookupKey l k = some v) : (k, v) ∈ l := by
  induction l with
  | nil => simp [lookupKey] at h
  | cons p ps ih =>
    cases p with
    | mk a b =>
      by_cases hp : (a == k) = true
      · have hk : a = k := eq_of_beq hp
        simp only [lookupKey, hp, if_true] at h
        cases h
        subst hk
        exact List.mem_cons_self _ _
      · simp only [lookupKey, hp, Bool.false_eq_true, if_false] at h
        exact List.mem_cons_of_mem _ (ih h)

lemma removeKey_of_not_mem {α : Type} (l : List (String × α)) (k : String)
    (h : k ∉ l.map Prod.fst) : removeKey l k = l := by
  induction l with
  | nil => rfl
  | cons p ps ih =>
    simp only [List.map_cons, List.mem_cons, not_or] at h
    have hne : (p.1 != k) = true := by
      simp [bne_iff_ne]
      exact fun hc => h.1 (hc ▸ rfl)
    simp only [removeKey, List.filter_cons, hne, if_true]
    rw [show List.filter (fun p => p.1 != k) ps = removeKey ps k from rfl, ih h.2]

lemma not_mem_keys_removeKey {α : Type} (l : List (String × α)) (k : String) :
    k ∉ (removeKey l k).map Prod.fst := by
  intro hmem
  simp only [removeKey, List.mem_map] at hmem
  obtain ⟨p, hp, hpk⟩ := hmem
  have := (List.mem_filter.mp hp).2
  rw [hpk] at this
  simp at this

lemma keys_removeKey_sublist {α : Type} (l : List (String × α)) (k : String) :
    List.Sublist ((removeKey l k).map Prod.fst) (l.map Prod.fst) :=
  (List.filter_sublist l).map Prod.fst

lemma nodup_keys_removeKey {α : Type} (l : List (String × α)) (k : String)
    (h : (l.map Prod.fst).Nodup) : ((removeKey l k).map Prod.fst).Nodup :=
  h.sublist (keys_removeKey_sublist l k)

lemma lookupKey_removeKey_self {α : Type} (l : List (String × α)) (k : String) :
    lookupKey (removeKey l k) k = none :=
  (lookupKey_none_iff _ _).mpr (not_mem_keys_removeKey l k)

lemma lookupKey_removeKey_ne {α : Type} (l : List (String × α)) {k k' : String}
    (h : k ≠ k') : lookupKey (removeKey l k') k = lookupKey l k := by
  induction l with
  | nil => rfl
  | cons p ps ih =>
    simp only [removeKey, List.filter_cons]
    by_cases hp : (p.1 != k') = true
    · rw [if_pos hp]
      by_cases hpk : (p.1 == k) = true
      · simp [lookupKey, hpk]
      · simp only [lookupKey, hpk, Bool.false_eq_true, if_false]
        exact ih
    · rw [if_neg hp]
      have hpk' : p.1 = k' := by
        simpa [bne_iff_ne] using hp
      have hpk : (p.1 == k) = false := by
        rw [hpk']
        exact beq_eq_false_iff_ne.mpr (Ne.symm h)
      have hstep : lookupKey (p :: ps) k = lookupKey ps k := by
        simp [lookupKey, hpk]
      rw [hstep]
      exact ih

lemma lookupKey_append {α : Type} (l1 l2 : List (String × α)) (k : String) :
    lookupKey (l1 ++ l2) k =
      match lookupKey l1 k with
      | some v => some v
      | none => lookupKey l2 k := by
  induction l1 with
  | nil => simp [lookupKey]
  | cons p ps ih =>
    by_cases hp : (p.1 == k) = true <;> simp [lookupKey, hp, ih]

lemma lookupKey_append_right {α : Type} (l : List (String × α)) (k : String) (v : α)
    (h : k ∉ l.map Prod.fst) : lookupKey (l ++ [(k, v)]) k = some v := by
  rw [lookupKey_append, (lookupKey_none_iff l k).mpr h]
  simp [lookupKey]

lemma lookupKey_setKey_self {α : Type} (l : List (String × α)) (k : String) (v : α) :
    lookupKey (setKey l k v) k = some v :=
  lookupKey_append_right _ _ _ (not_mem_keys_removeKey l k)

lemma lookupKey_setKey_ne {α : Type} (l : List (String × α)) {k k' : String} (v : α)
    (h : k ≠ k') : lookupKey (setKey l k' v) k = lookupKey l k := by
  unfold setKey
  rw [lookupKey_append, lookupKey_removeKey_ne l h]
  cases hl : lookupKey l k with
  | some w => rfl
  | none =>
    simp only [lookupKey]
    rw [if_neg (by simp [Ne.symm h])]

lemma liveSize_cons (k : String) (v : CVal) (l : List (String × CVal)) :
    liveSize ((k, v) :: l) = (v.size : Int) + liveSize l := by
  simp [liveSize]

lemma liveSize_append (l1 l2 : List (String × CVal)) :
    liveSize (l1 ++ l2) = liveSize l1 + liveSize l2 := by
  simp [liveSize]

lemma liveSize_removeKey (l : List (String × CVal)) (k : String) (v : CVal)
    (hnd : (l.map Prod.fst).Nodup) (h : lookupKey l k = some v) :
    liveSize (removeKey l k) = liveSize l - (v.size : Int) := by
  induction l with
  | nil => simp [lookupKey] at h
  | cons p ps ih =>
    rw [List.map_cons, List.nodup_cons] at hnd
    by_cases hp : (p.1 == k) = true
    · have hpk : p.1 = k := eq_of_beq hp
      have hv : v = p.2 := by
        simp only [lookupKey, hp, if_true] at h
        exact (Option.some.inj h).symm
      have hknotin : k ∉ ps.map Prod.fst := hpk ▸ hnd.1
      have hcond : ¬((p.1 != k) = true) := by simp [hpk]
      simp only [removeKey, List.filter_cons]
      rw [if_neg hcond]
      rw [show List.filter (fun q => q.1 != k) ps = removeKey ps k from rfl,
        removeKey_of_not_mem ps k hknotin]
      cases p with
      | mk a b =>
        subst hv
        rw [liveSize_cons]
        ring
    · have hpne : p.1 ≠ k := fun hc => hp (by simp [hc])
      have h' : lookupKey ps k = some v := by
        simpa [lookupKey, hp] using h
      have hcond : (p.1 != k) = true := by simp [bne_iff_ne, hpne]
      simp only [removeKey, List.filter_cons]
      rw [if_pos hcond]
      cases p with
      | mk a b =>
        rw [show List.filter (fun q => q.1 != k) ps = removeKey ps k from rfl]
        rw [liveSize_cons, liveSize_cons, ih hnd.2 h']
        ring

/-! ## Invariant preservation and eviction characterization -/

lemma inv_cacheClearKey (st : CacheState) (k : String) (h : CacheInv st) :
    CacheInv (cacheClearKey st k) := by
  obtain ⟨hnd, hsz⟩ := h
  unfold cacheClearKey
  cases hl : lookupKey st.cache k with
  | none => exact ⟨hnd, hsz⟩
  | some v =>
    refine ⟨nodup_keys_removeKey _ _ hnd, ?_⟩
    show st.currentCacheSize - (v.size : Int) = liveSize (removeKey st.cache k)
    rw [liveSize_removeKey st.cache k v hnd hl, hsz]

lemma evictOne_nil (st : CacheState) (hc : st.cache = []) : evictOne st = st := by
  unfold evictOne
  rw [hc]

lemma evictOne_cons (st : CacheState) (k : String) (v : CVal) (tl : List (String × CVal))
    (hc : st.cache = (k, v) :: tl) :
    evictOne st =
      { st with
        cache := tl,
        currentCacheSize := st.currentCacheSize - (v.size : Int),
        expiryTimes := removeKey st.expiryTimes k,
        accessTimes := removeKey st.accessTimes k } := by
  unfold evictOne
  rw [hc]

lemma inv_evictOne (st : CacheState) (h : CacheInv st) : CacheInv (evictOne st) := by
  obtain ⟨hnd, hsz⟩ := h
  cases hc : st.cache with
  | nil => rw [evictOne_nil st hc]; exact ⟨hnd, hsz⟩
  | cons p rest =>
    cases p with
    | mk k v =>
      rw [evictOne_cons st k v rest hc]
      rw [hc, List.map_cons, List.nodup_cons] at hnd
      rw [hc, liveSize_cons] at hsz
      refine ⟨hnd.2, ?_⟩
      show st.currentCacheSize - (v.size : Int) = liveSize rest
      rw [hsz]
      ring

lemma inv_evictLoopF (vs : Nat) :
    ∀ (fuel : Nat) (st : CacheState), CacheInv st → CacheInv (evictLoopF vs fuel st) := by
  intro fuel
  induction fuel with
  | zero => intro st h; exact h
  | succ n ih =>
    intro st h
    simp only [evictLoopF]
    split_ifs with hcond
    · exact ih _ (inv_evictOne st h)
    · exact h

lemma evictLoopF_cache_subset (vs : Nat) :
    ∀ (fuel : Nat) (st : CacheState) (k : String),
      k ∈ (evictLoopF vs fuel st).cache.map Prod.fst → k ∈ st.cache.map Prod.fst := by
  intro fuel
  induction fuel with
  | zero => intro st k h; exact h
  | succ n ih =>
    intro st k h
    simp only [evictLoopF] at h
    split_ifs at h with hcond
    · have h' := ih _ _ h
      cases hc : st.cache with
      | nil => rw [evictOne_nil st hc, hc] at h'; exact h'
      | cons p rest =>
        cases p with
        | mk k0 v0 =>
          rw [evictOne_cons st k0 v0 rest hc] at h'
          exact List.mem_cons_of_mem _ h'
    · exact h

lemma evictLoopF_lookup_not_mem (vs : Nat) :
    ∀ (fuel : Nat) (st : CacheState) (k : String), k ∉ st.cache.map Prod.fst →
      lookupKey (evictLoopF vs fuel st).expiryTimes k = lookupKey st.expiryTimes k ∧
      lookupKey (evictLoopF vs fuel st).accessTimes k = lookupKey st.accessTimes k := by
  intro fuel
  induction fuel with
  | zero => intro st k _; exact ⟨rfl, rfl⟩
  | succ n ih =>
    intro st k h
    simp only [evictLoopF]
    split_ifs with hcond
    · cases hc : st.cache with
      | nil =>
        rw [hc] at hcond
        simp at hcond
      | cons p tl =>
        cases p with
        | mk k0 v0 =>
          have hk0 : k ≠ k0 ∧ k ∉ tl.map Prod.fst := by
            rw [hc] at h
            simp only [List.map_cons, List.mem_cons, not_or] at h
            exact h
          have htl : k ∉ (evictOne st).cache.map Prod.fst := by
            rw [evictOne_cons st k0 v0 tl hc]
            exact hk0.2
          obtain ⟨ihe, iha⟩ := ih (evictOne st) k htl
          have he : lookupKey (evictOne st).expiryTimes k = lookupKey st.expiryTimes k := by
            rw [evictOne_cons st k0 v0 tl hc]
            exact lookupKey_removeKey_ne _ hk0.1
          have ha : lookupKey (evictOne st).accessTimes k = lookupKey st.accessTimes k := by
            rw [evictOne_cons st k0 v0 tl hc]
            exact lookupKey_removeKey_ne _ hk0.1
          exact ⟨ihe.trans he, iha.trans ha⟩
    · exact ⟨rfl, rfl⟩

lemma evictLoopF_access_mem (vs : Nat) :
    ∀ (fuel : Nat) (st : CacheState), (st.cache.map Prod.fst).Nodup →
      ∀ k, k ∈ (evictLoopF vs fuel st).cache.map Prod.fst →
        lookupKey (evictLoopF vs fuel st).accessTimes k = lookupKey st.accessTimes k := by
  intro fuel
  induction fuel with
  | zero => intro st _ k _; rfl
  | succ n ih =>
    intro st hnd k hk
    simp only [evictLoopF] at hk ⊢
    split_ifs with hcond
    · rw [if_pos hcond] at hk
      cases hc : st.cache with
      | nil =>
        rw [hc] at hcond
        simp at hcond
      | cons p tl =>
        cases p with
        | mk k0 v0 =>
          have hnd' : (tl.map Prod.fst).Nodup := by
            rw [hc, List.map_cons, List.nodup_cons] at hnd
            exact hnd.2
          have hk0tl : k0 ∉ tl.map Prod.fst := by
            rw [hc, List.map_cons, List.nodup_cons] at hnd
            exact hnd.1
          have hndE : ((evictOne st).cache.map Prod.fst).Nodup := by
            rw [evictOne_cons st k0 v0 tl hc]
            exact hnd'
          have hkE : k ∈ (evictOne st).cache.map Prod.fst :=
            evictLoopF_cache_subset vs n (evictOne st) k hk
          have hktl : k ∈ tl.map Prod.fst := by
            rw [evictOne_cons st k0 v0 tl hc] at hkE
            exact hkE
          have hk0 : k ≠ k0 := fun he => hk0tl (he ▸ hktl)
          have ha : lookupKey (evictOne st).accessTimes k = lookupKey st.accessTimes k := by
            rw [evictOne_cons st k0 v0 tl hc]
            exact lookupKey_removeKey_ne _ hk0
          exact (ih (evictOne st) hndE k hk).trans ha
    · rfl

lemma evictLoopF_access_subset (vs : Nat) :
    ∀ (fuel : Nat) (st : CacheState) (p : String × Int),
      p ∈ (evictLoopF vs fuel st).accessTimes → p ∈ st.accessTimes := by
  intro fuel
  induction fuel with
  | zero => intro st p h; exact h
  | succ n ih =>
    intro st p h
    simp only [evictLoopF] at h
    split_ifs at h with hcond
    · have h' := ih _ _ h
      cases hc : st.cache with
      | nil => rw [evictOne_nil st hc] at h'; exact h'
      | cons q tl =>
        cases q with
        | mk k0 v0 =>
          rw [evictOne_cons st k0 v0 tl hc] at h'
          exact (List.mem_filter.mp h').1
    · exact h

/-- The eviction loop removes entries from the least-recently-used end,
one at a time: the surviving cache is a suffix (`drop n`), the size
counter drops by exactly the accounted sizes of the removed prefix, and
it stops at the first point where the new value fits — every earlier
stage was still over capacity — or when the cache is empty. -/
lemma evictLoopF_spec (vs : Nat) :
    ∀ (fuel : Nat) (st : CacheState), st.cache.length ≤ fuel →
      ∃ n, (evictLoopF vs fuel st).cache = st.cache.drop n ∧
        (evictLoopF vs fuel st).currentCacheSize =
          st.currentCacheSize - liveSize (st.cache.take n) ∧
        (evictLoopF vs fuel st).maxCacheSize = st.maxCacheSize ∧
        ((evictLoopF vs fuel st).currentCacheSize + (vs : Int) ≤
            ((evictLoopF vs fuel st).maxCacheSize : Int) ∨
          (evictLoopF vs fuel st).cache = []) ∧
        (∀ m < n, st.currentCacheSize - liveSize (st.cache.take m) + (vs : Int) >
          (st.maxCacheSize : Int)) := by
  intro fuel
  induction fuel with
  | zero =>
    intro st hlen
    have hnil : st.cache = [] := List.length_eq_zero.mp (Nat.le_zero.mp hlen)
    exact ⟨0, by simp [evictLoopF], by simp [evictLoopF, liveSize], rfl,
      Or.inr (by simp [evictLoopF, hnil]), by omega⟩
  | succ n ih =>
    intro st hlen
    by_cases hcond : st.currentCacheSize + (vs : Int) > (st.maxCacheSize : Int) ∧
        st.cache ≠ []
    · have hcondb :
          (decide (st.currentCacheSize + (vs : Int) > (st.maxCacheSize : Int)) &&
            !st.cache.isEmpty) = true := by
        obtain ⟨h1, h2⟩ := hcond
        simp [h1, h2]
      have hstep : evictLoopF vs (n + 1) st = evictLoopF vs n (evictOne st) := by
        simp only [evictLoopF]
        rw [if_pos hcondb]
      obtain ⟨hgt, hne⟩ := hcond
      obtain ⟨k0, v0, tl, hc⟩ : ∃ k0 v0 tl, st.cache = (k0, v0) :: tl := by
        cases hcc : st.cache with
        | nil => exact absurd hcc hne
        | cons p tl => exact ⟨p.1, p.2, tl, by simp [hcc]⟩
      have he1 : (evictOne st).cache = tl := by rw [evictOne_cons st k0 v0 tl hc]
      have he2 : (evictOne st).currentCacheSize = st.currentCacheSize - (v0.size : Int) := by
        rw [evictOne_cons st k0 v0 tl hc]
      have he3 : (evictOne st).maxCacheSize = st.maxCacheSize := by
        rw [evictOne_cons st k0 v0 tl hc]
      have hlen' : (evictOne st).cache.length ≤ n := by
        rw [he1]
        rw [hc] at hlen
        simpa using hlen
      obtain ⟨n', h1, h2, h3, h4, h5⟩ := ih (evictOne st) hlen'
      refine ⟨n' + 1, ?_, ?_, ?_, ?_, ?_⟩
      · rw [hstep, h1, he1, hc, List.drop_succ_cons]
      · rw [hstep, h2, he2, he1, hc, List.take_succ_cons, liveSize_cons]
        ring
      · rw [hstep, h3, he3]
      · rw [hstep]
        exact h4
      · intro m hm
        cases m with
        | zero =>
          simpa [liveSize] using hgt
        | succ m' =>
          have hm' : m' < n' := by omega
          have h5' := h5 m' hm'
          rw [he2, he1, he3] at h5'
          rw [hc, List.take_succ_cons, liveSize_cons]
          omega
    · have hcondb :
          (decide (st.currentCacheSize + (vs : Int) > (st.maxCacheSize : Int)) &&
            !st.cache.isEmpty) = false := by
        rcases not_and_or.mp hcond with h | h
        · simp [h]
        · have : st.cache = [] := not_not.mp h
          simp [this]
      have hstep : evictLoopF vs (n + 1) st = st := by
        simp only [evictLoopF]
        rw [if_neg (by simp [hcondb])]
      refine ⟨0, by rw [hstep]; simp, by rw [hstep]; simp [liveSize], by rw [hstep], ?_,
        by omega⟩
      rw [hstep]
      rcases not_and_or.mp hcond with h | h
      · left
        omega
      · right
        exact not_not.mp h

lemma inv_cacheGet (st : CacheState) (k : String) (now : Int) (h : CacheInv st) :
    CacheInv (cacheGet st k now).2 := by
  obtain ⟨hnd, hsz⟩ := h
  cases hl : lookupKey st.cache k with
  | none => simp only [cacheGet, hl]; exact ⟨hnd, hsz⟩
  | some v =>
    simp only [cacheGet, hl]
    split_ifs with hexp
    · exact inv_cacheClearKey st k ⟨hnd, hsz⟩
    · refine ⟨?_, ?_⟩
      · show ((removeKey st.cache k ++ [(k, v)]).map Prod.fst).Nodup
        rw [List.map_append]
        refine List.Nodup.append (nodup_keys_removeKey _ _ hnd) (by simp) ?_
        intro a ha hb
        simp only [List.map_cons, List.map_nil, List.mem_singleton] at hb
        rw [hb] at ha
        exact not_mem_keys_removeKey st.cache k ha
      · show st.currentCacheSize = liveSize (removeKey st.cache k ++ [(k, v)])
        rw [liveSize_append, liveSize_removeKey st.cache k v hnd hl, hsz]
        simp [liveSize]

lemma inv_set_finish (st2 : CacheState) (k : String) (v : CVal)
    (E A : List (String × Int)) (h2 : CacheInv st2) (hk : k ∉ st2.cache.map Prod.fst) :
    CacheInv
      { cache := st2.cache ++ [(k, v)], maxCacheSize := st2.maxCacheSize,
        currentCacheSize := st2.currentCacheSize + (v.size : Int),
        expiryTimes := E, accessTimes := A } := by
  obtain ⟨hnd2, hsz2⟩ := h2
  refine ⟨?_, ?_⟩
  · show ((st2.cache ++ [(k, v)]).map Prod.fst).Nodup
    rw [List.map_append]
    refine List.Nodup.append hnd2 (by simp) ?_
    intro a ha hb
    simp only [List.map_cons, List.map_nil, List.mem_singleton] at hb
    rw [hb] at ha
    exact hk ha
  · show st2.currentCacheSize + (v.size : Int) = liveSize (st2.cache ++ [(k, v)])
    rw [liveSize_append, ← hsz2]
    simp [liveSize]

lemma inv_cacheSet (st : CacheState) (k : String) (v : CVal) (ttl now : Int)
    (h : CacheInv st) : CacheInv (cacheSet st k v ttl now) := by
  obtain ⟨hnd, hsz⟩ := h
  cases hl : lookupKey st.cache k with
  | some old =>
    simp only [cacheSet, hl]
    have hinv1 : CacheInv
        { st with
          currentCacheSize := st.currentCacheSize - (old.size : Int),
          cache := removeKey st.cache k } := by
      refine ⟨nodup_keys_removeKey _ _ hnd, ?_⟩
      show st.currentCacheSize - (old.size : Int) = liveSize (removeKey st.cache k)
      rw [liveSize_removeKey st.cache k old hnd hl, hsz]
    have hk1 : k ∉ (removeKey st.cache k).map Prod.fst := not_mem_keys_removeKey _ _
    have hinv2 : CacheInv (evictLoop v.size
        { st with
          currentCacheSize := st.currentCacheSize - (old.size : Int),
          cache := removeKey st.cache k }) := inv_evictLoopF _ _ _ hinv1
    have hk2 : k ∉ (evictLoop v.size
        { st with
          currentCacheSize := st.currentCacheSize - (old.size : Int),
          cache := removeKey st.cache k }).cache.map Prod.fst := by
      intro hmem
      exact hk1 (evictLoopF_cache_subset _ _ _ _ hmem)
    split_ifs with htl <;> exact inv_set_finish _ k v _ _ hinv2 hk2
  | none =>
    simp only [cacheSet, hl]
    have hk1 : k ∉ st.cache.map Prod.fst := (lookupKey_none_iff _ _).mp hl
    have hinv2 : CacheInv (evictLoop v.size st) := inv_evictLoopF _ _ _ ⟨hnd, hsz⟩
    have hk2 : k ∉ (evictLoop v.size st).cache.map Prod.fst := by
      intro hmem
      exact hk1 (evictLoopF_cache_subset _ _ _ _ hmem)
    split_ifs with htl <;> exact inv_set_finish _ k v _ _ hinv2 hk2

lemma inv_foldl_clearKey (ks : List String) :
    ∀ st : CacheState, CacheInv st → CacheInv (ks.foldl cacheClearKey st) := by
  induction ks with
  | nil => intro st h; exact h
  | cons a ks ih => intro st h; exact ih _ (inv_cacheClearKey st a h)

lemma inv_applyOp (st : CacheState) (op : CacheOp) (h : CacheInv st) :
    CacheInv (applyOp st op) := by
  cases op with
  | get k now => exact inv_cacheGet st k now h
  | set k v ttl now => exact inv_cacheSet st k v ttl now h
  | clearKey k => exact inv_cacheClearKey st k h
  | clearAll => exact ⟨by simp [applyOp, cacheClearAll], by simp [applyOp, cacheClearAll, liveSize]⟩
  | cleanup now => exact inv_foldl_clearKey _ st h

lemma inv_runOps (ops : List CacheOp) :
    ∀ st : CacheState, CacheInv st → CacheInv (runOps st ops) := by
  induction ops with
  | nil => intro st h; exact h
  | cons op ops ih => intro st h; exact ih _ (inv_applyOp st op h)

/-! ## The `OrderedDict` order is the access order -/

lemma sorted_cacheClearKey (st : CacheState) (k : String) (h : SortedByAccess st) :
    SortedByAccess (cacheClearKey st k) := by
  unfold cacheClearKey
  cases hl : lookupKey st.cache k with
  | none => exact h
  | some v =>
    unfold SortedByAccess at h ⊢
    have hsub : (removeKey st.cache k).Pairwise
        (fun p q => accessOf st p.1 ≤ accessOf st q.1) :=
      List.Pairwise.sublist (List.filter_sublist _) h
    refine hsub.imp_of_mem ?_
    intro a b ha hb hab
    have hak : a.1 ≠ k := by
      have := (List.mem_filter.mp ha).2
      simpa [bne_iff_ne] using this
    have hbk : b.1 ≠ k := by
      have := (List.mem_filter.mp hb).2
      simpa [bne_iff_ne] using this
    show (lookupKey (removeKey st.accessTimes k) a.1).getD 0 ≤
      (lookupKey (removeKey st.accessTimes k) b.1).getD 0
    rw [lookupKey_removeKey_ne _ hak, lookupKey_removeKey_ne _ hbk]
    exact hab

lemma accessOf_le_of_UB (st : CacheState) (x : String) (now : Int)
    (ht : TimeUB st now) : accessOf st x ≤ now := by
  unfold accessOf
  cases hla : lookupKey st.accessTimes x with
  | none => simpa using ht.2
  | some t =>
    have := ht.1 (x, t) (lookupKey_mem _ _ _ hla)
    simpa using this

lemma sorted_cacheGet (st : CacheState) (k : String) (now : Int)
    (ht : TimeUB st now) (h : SortedByAccess st) :
    SortedByAccess (cacheGet st k now).2 := by
  cases hl : lookupKey st.cache k with
  | none => simp only [cacheGet, hl]; exact h
  | some v =>
    simp only [cacheGet, hl]
    split_ifs with hexp
    · exact sorted_cacheClearKey st k h
    · unfold SortedByAccess
      show (removeKey st.cache k ++ [(k, v)]).Pairwise _
      rw [List.pairwise_append]
      refine ⟨?_, by simp, ?_⟩
      · have hsub : (removeKey st.cache k).Pairwise
            (fun p q => accessOf st p.1 ≤ accessOf st q.1) :=
          List.Pairwise.sublist (List.filter_sublist _) h
        refine hsub.imp_of_mem ?_
        intro a b ha hb hab
        have hak : a.1 ≠ k := by
          have := (List.mem_filter.mp ha).2
          simpa [bne_iff_ne] using this
        have hbk : b.1 ≠ k := by
          have := (List.mem_filter.mp hb).2
          simpa [bne_iff_ne] using this
        show (lookupKey (setKey st.accessTimes k now) a.1).getD 0 ≤
          (lookupKey (setKey st.accessTimes k now) b.1).getD 0
        rw [lookupKey_setKey_ne _ _ hak, lookupKey_setKey_ne _ _ hbk]
        exact hab
      · intro a ha b hb
        simp only [List.mem_singleton] at hb
        subst hb
        have hak : a.1 ≠ k := by
          have := (List.mem_filter.mp ha).2
          simpa [bne_iff_ne] using this
        show (lookupKey (setKey st.accessTimes k now) a.1).getD 0 ≤
          (lookupKey (setKey st.accessTimes k now) k).getD 0
        rw [lookupKey_setKey_ne _ _ hak, lookupKey_setKey_self]
        exact accessOf_le_of_UB st a.1 now ht

lemma sorted_set_finish (st1 : CacheState) (k : String) (v : CVal) (now : Int) (E : List (String × Int))
    (ht : TimeUB st1 now) (hnd1 : (st1.cache.map Prod.fst).Nodup)
    (hk : k ∉ st1.cache.map Prod.fst) (h1 : SortedByAccess st1) :
    SortedByAccess
      { cache := (evictLoop v.size st1).cache ++ [(k, v)],
        maxCacheSize := (evictLoop v.size st1).maxCacheSize,
        currentCacheSize := (evictLoop v.size st1).currentCacheSize + (v.size : Int),
        expiryTimes := E,
        accessTimes := setKey (evictLoop v.size st1).accessTimes k now } := by
  have hsub : ∀ k', k' ∈ (evictLoop v.size st1).cache.map Prod.fst →
      k' ∈ st1.cache.map Prod.fst :=
    fun k' => evictLoopF_cache_subset _ _ _ _
  have hacc : ∀ k', k' ∈ (evictLoop v.size st1).cache.map Prod.fst →
      lookupKey (evictLoop v.size st1).accessTimes k' = lookupKey st1.accessTimes k' :=
    evictLoopF_access_mem _ _ _ hnd1
  obtain ⟨n, hdrop, -, -, -, -⟩ := evictLoopF_spec v.size st1.cache.length st1 le_rfl
  have hsorted2 : (evictLoop v.size st1).cache.Pairwise
      (fun p q => accessOf st1 p.1 ≤ accessOf st1 q.1) := by
    show (evictLoopF v.size st1.cache.length st1).cache.Pairwise _
    rw [hdrop]
    exact List.Pairwise.sublist (List.drop_sublist n _) h1
  unfold SortedByAccess
  show ((evictLoop v.size st1).cache ++ [(k, v)]).Pairwise _
  rw [List.pairwise_append]
  refine ⟨?_, by simp, ?_⟩
  · refine hsorted2.imp_of_mem ?_
    intro a b ha hb hab
    have hamem : a.1 ∈ (evictLoop v.size st1).cache.map Prod.fst :=
      List.mem_map_of_mem _ ha
    have hbmem : b.1 ∈ (evictLoop v.size st1).cache.map Prod.fst :=
      List.mem_map_of_mem _ hb
    have hak : a.1 ≠ k := fun he => hk (he ▸ hsub a.1 hamem)
    have hbk : b.1 ≠ k := fun he => hk (he ▸ hsub b.1 hbmem)
    show (lookupKey (setKey (evictLoop v.size st1).accessTimes k now) a.1).getD 0 ≤
      (lookupKey (setKey (evictLoop v.size st1).accessTimes k now) b.1).getD 0
    rw [lookupKey_setKey_ne _ _ hak, lookupKey_setKey_ne _ _ hbk,
      hacc a.1 hamem, hacc b.1 hbmem]
    exact hab
  · intro a ha b hb
    simp only [List.mem_singleton] at hb
    subst hb
    have hamem : a.1 ∈ (evictLoop v.size st1).cache.map Prod.fst :=
      List.mem_map_of_mem _ ha
    have hak : a.1 ≠ k := fun he => hk (he ▸ hsub a.1 hamem)
    show (lookupKey (setKey (evictLoop v.size st1).accessTimes k now) a.1).getD 0 ≤
      (lookupKey (setKey (evictLoop v.size st1).accessTimes k now) k).getD 0
    rw [lookupKey_setKey_ne _ _ hak, lookupKey_setKey_self, hacc a.1 hamem]
    exact accessOf_le_of_UB st1 a.1 now ht

lemma sorted_cacheSet (st : CacheState) (k : String) (v : CVal) (ttl now : Int)
    (ht : TimeUB st now) (hinv : CacheInv st) (h : SortedByAccess st) :
    SortedByAccess (cacheSet st k v ttl now) := by
  obtain ⟨hnd, -⟩ := hinv
  cases hl : lookupKey st.cache k with
  | some old =>
    simp only [cacheSet, hl]
    have hnd1 : ((removeKey st.cache k).map Prod.fst).Nodup :=
      nodup_keys_removeKey _ _ hnd
    have hk1 : k ∉ (removeKey st.cache k).map Prod.fst := not_mem_keys_removeKey _ _
    have h1 : SortedByAccess
        { st with
          currentCacheSize := st.currentCacheSize - (old.size : Int),
          cache := removeKey st.cache k } := by
      unfold SortedByAccess
      show (removeKey st.cache k).Pairwise _
      exact List.Pairwise.sublist (List.filter_sublist _) h
    split_ifs with htl <;>
      exact sorted_set_finish _ k v now _ ht hnd1 hk1 h1
  | none =>
    simp only [cacheSet, hl]
    have hk1 : k ∉ st.cache.map Prod.fst := (lookupKey_none_iff _ _).mp hl
    split_ifs with htl <;>
      exact sorted_set_finish st k v now _ ht hnd hk1 h

/-- C4: (1) after every sequence of cache operations the reported used
size (`get_stats`'s `total_size`, i.e. `current_cache_size`) equals the
true sum of the accounted sizes of the stored entries; (2) the eviction
loop of `set` removes entries one at a time from the front of the
access-ordered dict — the survivors are a suffix — until the new entry
fits or the cache is empty, and every eviction happened while the
running size was still over capacity; (3)–(4) `get` and `set` keep the
dict ordered by recorded access time (front = least recently accessed),
which is what makes the front-pop of (2) least-recently-accessed-first
eviction. -/
theorem C4_cache_accounting :
    (∀ (maxSize : Nat) (ops : List CacheOp),
        cacheStatsTotalSize (runOps (initCache maxSize) ops) =
          liveSize (runOps (initCache maxSize) ops).cache) ∧
    (∀ (vs : Nat) (st : CacheState), ∃ n,
        (evictLoop vs st).cache = st.cache.drop n ∧
        (evictLoop vs st).currentCacheSize =
          st.currentCacheSize - liveSize (st.cache.take n) ∧
        ((evictLoop vs st).currentCacheSize + (vs : Int) ≤ (st.maxCacheSize : Int) ∨
          (evictLoop vs st).cache = []) ∧
        (∀ m < n, st.currentCacheSize - liveSize (st.cache.take m) + (vs : Int) >
          (st.maxCacheSize : Int))) ∧
    (∀ (st : CacheState) (k : String) (now : Int),
        TimeUB st now → SortedByAccess st → SortedByAccess (cacheGet st k now).2) ∧
    (∀ (st : CacheState) (k : String) (v : CVal) (ttl now : Int),
        TimeUB st now → CacheInv st → SortedByAccess st →
        SortedByAccess (cacheSet st k v ttl now)) := by
  refine ⟨?_, ?_, sorted_cacheGet, sorted_cacheSet⟩
  · intro maxSize ops
    exact (inv_runOps ops (initCache maxSize)
      ⟨by simp [initCache], by simp [initCache, liveSize]⟩).2
  · intro vs st
    obtain ⟨n, h1, h2, h3, h4, h5⟩ := evictLoopF_spec vs st.cache.length st le_rfl
    refine ⟨n, h1, h2, ?_, h5⟩
    rw [h3] at h4
    exact h4

/-- C4 witness: the accounting and ordering facts at concrete states. -/
theorem C4_witness :
    cacheStatsTotalSize
        (runOps (initCache 100) [CacheOp.set "a" (CVal.text "xy") 10 0]) =
      liveSize (runOps (initCache 100) [CacheOp.set "a" (CVal.text "xy") 10 0]).cache ∧
    SortedByAccess (cacheGet (initCache 5) "a" 1).2 ∧
    SortedByAccess (cacheSet (initCache 5) "a" (CVal.text "x") 3 2) :=
  ⟨C4_cache_accounting.1 100 _,
   C4_cache_accounting.2.2.1 (initCache 5) "a" 1 (by decide) (by decide),
   C4_cache_accounting.2.2.2 (initCache 5) "a" (CVal.text "x") 3 2
     (by decide) (by decide) (by decide)⟩

/-! ## Evaluation lemmas for `set` and `get`, and the TTL theorems -/

lemma cacheSet_lookup_cache (st : CacheState) (k : String) (v : CVal) (ttl now : Int) :
    lookupKey (cacheSet st k v ttl now).cache k = some v := by
  cases hl : lookupKey st.cache k with
  | some old =>
    simp only [cacheSet, hl]
    have hk1 : k ∉ (removeKey st.cache k).map Prod.fst := not_mem_keys_removeKey _ _
    have hk2 : k ∉ (evictLoop v.size
        { st with
          currentCacheSize := st.currentCacheSize - (old.size : Int),
          cache := removeKey st.cache k }).cache.map Prod.fst :=
      fun hmem => hk1 (evictLoopF_cache_subset _ _ _ _ hmem)
    split_ifs with htl <;> exact lookupKey_append_right _ _ _ hk2
  | none =>
    simp only [cacheSet, hl]
    have hk1 : k ∉ st.cache.map Prod.fst := (lookupKey_none_iff _ _).mp hl
    have hk2 : k ∉ (evictLoop v.size st).cache.map Prod.fst :=
      fun hmem => hk1 (evictLoopF_cache_subset _ _ _ _ hmem)
    split_ifs with htl <;> exact lookupKey_append_right _ _ _ hk2

lemma cacheSet_expiry_pos (st : CacheState) (k : String) (v : CVal) (ttl now : Int)
    (h : ttl > 0) :
    lookupKey (cacheSet st k v ttl now).expiryTimes k = some (now + ttl) := by
  cases hl : lookupKey st.cache k <;>
    · simp only [cacheSet, hl]
      rw [if_pos h]
      exact lookupKey_setKey_self _ _ _

lemma cacheSet_expiry_nonpos (st : CacheState) (k : String) (v : CVal) (ttl now : Int)
    (h : ¬ttl > 0) :
    lookupKey (cacheSet st k v ttl now).expiryTimes k = lookupKey st.expiryTimes k := by
  cases hl : lookupKey st.cache k with
  | some old =>
    simp only [cacheSet, hl]
    rw [if_neg h]
    have hk1 : k ∉ (removeKey st.cache k).map Prod.fst := not_mem_keys_removeKey _ _
    exact (evictLoopF_lookup_not_mem _ _ _ _ hk1).1
  | none =>
    simp only [cacheSet, hl]
    rw [if_neg h]
    have hk1 : k ∉ st.cache.map Prod.fst := (lookupKey_none_iff _ _).mp hl
    exact (evictLoopF_lookup_not_mem _ _ _ _ hk1).1

lemma setKey_key_val {α : Type} (l : List (String × α)) (k : String) (v : α) :
    ∀ p ∈ setKey l k v, p.1 = k → p.2 = v := by
  intro p hp hpk
  rcases List.mem_append.mp hp with hmem | hmem
  · exfalso
    have := (List.mem_filter.mp hmem).2
    rw [hpk] at this
    simp at this
  · simp only [List.mem_singleton] at hmem
    rw [hmem]

lemma cacheSet_expiry_unique (st : CacheState) (k : String) (v : CVal) (ttl now : Int)
    (h : ttl > 0) :
    ∀ p ∈ (cacheSet st k v ttl now).expiryTimes, p.1 = k → p.2 = now + ttl := by
  cases hl : lookupKey st.cache k <;>
    · simp only [cacheSet, hl]
      rw [if_pos h]
      exact setKey_key_val _ _ _

lemma cacheGet_eval (st : CacheState) (k : String) (now : Int) (v : CVal) (e : Int)
    (hc : lookupKey st.cache k = some v) (he : lookupKey st.expiryTimes k = some e) :
    cacheGet st k now =
      if e < now then (none, cacheClearKey st k)
      else (some v,
        { st with
          accessTimes := setKey st.accessTimes k now,
          cache := removeKey st.cache k ++ [(k, v)] }) := by
  by_cases h : e < now
  · rw [if_pos h]
    simp [cacheGet, hc, he, h]
  · rw [if_neg h]
    simp [cacheGet, hc, he, h]

lemma foldl_clearKey_preserves (ks : List String) (k : String) (h : k ∉ ks) :
    ∀ st : CacheState,
      lookupKey (ks.foldl cacheClearKey st).cache k = lookupKey st.cache k ∧
      lookupKey (ks.foldl cacheClearKey st).expiryTimes k = lookupKey st.expiryTimes k := by
  induction ks with
  | nil => intro st; exact ⟨rfl, rfl⟩
  | cons a ks ih =>
    intro st
    simp only [List.mem_cons, not_or] at h
    have hone : lookupKey (cacheClearKey st a).cache k = lookupKey st.cache k ∧
        lookupKey (cacheClearKey st a).expiryTimes k = lookupKey st.expiryTimes k := by
      unfold cacheClearKey
      cases hl : lookupKey st.cache a with
      | none => exact ⟨rfl, rfl⟩
      | some v =>
        exact ⟨lookupKey_removeKey_ne _ h.1, lookupKey_removeKey_ne _ h.1⟩
    obtain ⟨h1, h2⟩ := ih h.2 (cacheClearKey st a)
    simp only [List.foldl_cons]
    exact ⟨h1.trans hone.1, h2.trans hone.2⟩

lemma cacheClearKey_lookup_none (st : CacheState) (k : String) (v : CVal)
    (hc : lookupKey st.cache k = some v) :
    lookupKey (cacheClearKey st k).cache k = none := by
  simp only [cacheClearKey, hc]
  exact lookupKey_removeKey_self _ _

/-- C5: an entry inserted with a positive TTL is returned by `get` at
every instant strictly before the deadline `now + ttl` — also after an
active expiry sweep run before that deadline — and after the deadline it
is treated as absent and removed from the cache by the very `get` that
observes it. -/
theorem C5_ttl_visibility (st : CacheState) (k : String) (v : CVal)
    (ttl now t1 t2 : Int) (httl : 0 < ttl) :
    (t1 < now + ttl → (cacheGet (cacheSet st k v ttl now) k t1).1 = some v) ∧
    (t2 ≤ t1 → t1 < now + ttl →
      (cacheGet (cleanupExpired (cacheSet st k v ttl now) t2) k t1).1 = some v) ∧
    (now + ttl < t1 →
      (cacheGet (cacheSet st k v ttl now) k t1).1 = none ∧
      lookupKey ((cacheGet (cacheSet st k v ttl now) k t1).2).cache k = none) := by
  have hc : lookupKey (cacheSet st k v ttl now).cache k = some v :=
    cacheSet_lookup_cache st k v ttl now
  have he : lookupKey (cacheSet st k v ttl now).expiryTimes k = some (now + ttl) :=
    cacheSet_expiry_pos st k v ttl now httl
  refine ⟨?_, ?_, ?_⟩
  · intro h1
    rw [cacheGet_eval _ _ _ v (now + ttl) hc he, if_neg (by omega)]
  · intro h2 h1
    have hknot : k ∉ (((cacheSet st k v ttl now).expiryTimes.filter
        (fun p => decide (p.2 < t2))).map Prod.fst) := by
      intro hmem
      obtain ⟨p, hpf, hpk⟩ := List.mem_map.mp hmem
      have hpm := (List.mem_filter.mp hpf).1
      have hplt := (List.mem_filter.mp hpf).2
      have hval := cacheSet_expiry_unique st k v ttl now httl p hpm hpk
      rw [hval] at hplt
      simp only [decide_eq_true_eq] at hplt
      omega
    obtain ⟨hc', he'⟩ := foldl_clearKey_preserves _ k hknot (cacheSet st k v ttl now)
    rw [hc] at hc'
    rw [he] at he'
    rw [show cleanupExpired (cacheSet st k v ttl now) t2 =
        ((((cacheSet st k v ttl now).expiryTimes.filter
          (fun p => decide (p.2 < t2))).map Prod.fst).foldl cacheClearKey
          (cacheSet st k v ttl now)) from rfl]
    rw [cacheGet_eval _ _ _ v (now + ttl) hc' he', if_neg (by omega)]
  · intro h1
    rw [cacheGet_eval _ _ _ v (now + ttl) hc he, if_pos (by omega)]
    exact ⟨rfl, cacheClearKey_lookup_none _ _ v hc⟩

/-- C5 witness: TTL 5 inserted at time 0 is visible at time 4 (also
after a sweep at time 2) and gone — and physically removed — at
time 6. -/
theorem C5_witness :
    (cacheGet (cacheSet (initCache 100) "k" (CVal.text "vv") 5 0) "k" 4).1 =
      some (CVal.text "vv") ∧
    (cacheGet (cleanupExpired (cacheSet (initCache 100) "k" (CVal.text "vv") 5 0) 2)
        "k" 4).1 = some (CVal.text "vv") ∧
    (cacheGet (cacheSet (initCache 100) "k" (CVal.text "vv") 5 0) "k" 6).1 = none :=
  ⟨(C5_ttl_visibility (initCache 100) "k" (CVal.text "vv") 5 0 4 2 (by omega)).1 (by omega),
   (C5_ttl_visibility (initCache 100) "k" (CVal.text "vv") 5 0 4 2 (by omega)).2.1
     (by omega) (by omega),
   ((C5_ttl_visibility (initCache 100) "k" (CVal.text "vv") 5 0 6 2 (by omega)).2.2
     (by omega)).1⟩

/-- C10: re-inserting an existing key with a nonpositive TTL (no
expiry requested) does not clear the key's old expiry deadline: the
re-inserted value is visible before the original deadline, but a `get`
after that deadline treats it as absent and removes it. -/
theorem C10_stale_expiry (st : CacheState) (k : String) (v1 v2 : CVal)
    (ttl1 ttl2 now1 now2 t s : Int) (h1 : 0 < ttl1) (h2 : ttl2 ≤ 0)
    (hre : now2 < now1 + ttl1) (hvis : s < now1 + ttl1) (hexp : now1 + ttl1 < t) :
    ((cacheGet (cacheSet (cacheSet st k v1 ttl1 now1) k v2 ttl2 now2) k s).1 = some v2) ∧
    ((cacheGet (cacheSet (cacheSet st k v1 ttl1 now1) k v2 ttl2 now2) k t).1 = none) ∧
    lookupKey
      ((cacheGet (cacheSet (cacheSet st k v1 ttl1 now1) k v2 ttl2 now2) k t).2).cache k =
        none := by
  have hc : lookupKey (cacheSet (cacheSet st k v1 ttl1 now1) k v2 ttl2 now2).cache k =
      some v2 := cacheSet_lookup_cache _ k v2 ttl2 now2
  have he2 : lookupKey (cacheSet (cacheSet st k v1 ttl1 now1) k v2 ttl2 now2).expiryTimes k =
      some (now1 + ttl1) := by
    rw [cacheSet_expiry_nonpos _ k v2 ttl2 now2 (by omega)]
    exact cacheSet_expiry_pos st k v1 ttl1 now1 h1
  refine ⟨?_, ?_, ?_⟩
  · rw [cacheGet_eval _ _ _ v2 (now1 + ttl1) hc he2, if_neg (by omega)]
  · rw [cacheGet_eval _ _ _ v2 (now1 + ttl1) hc he2, if_pos (by omega)]
  · rw [cacheGet_eval _ _ _ v2 (now1 + ttl1) hc he2, if_pos (by omega)]
    exact cacheClearKey_lookup_none _ _ v2 hc

/-- C10 witness: TTL 5 at time 0, overwritten with TTL 0 at time 2;
the new value is visible at time 4 but gone at time 6. -/
theorem C10_witness :
    ((cacheGet (cacheSet (cacheSet (initCache 100) "k" (CVal.text "a") 5 0)
        "k" (CVal.text "b") 0 2) "k" 4).1 = some (CVal.text "b")) ∧
    ((cacheGet (cacheSet (cacheSet (initCache 100) "k" (CVal.text "a") 5 0)
        "k" (CVal.text "b") 0 2) "k" 6).1 = none) :=
  ⟨(C10_stale_expiry (initCache 100) "k" (CVal.text "a") (CVal.text "b") 5 0 0 2 6 4
      (by omega) (by omega) (by omega) (by omega) (by omega)).1,
   (C10_stale_expiry (initCache 100) "k" (CVal.text "a") (CVal.text "b") 5 0 0 2 6 4
      (by omega) (by omega) (by omega) (by omega) (by omega)).2.1⟩

end LogPlugin
